import Mathlib

/-!
Verification of the document-normalization pipeline in
CoderSkills/standardize-wiki-docs/parse_docs.py.

Strings from the Python source are modelled as `List Char` (file paths, where a
linear order is needed for sorting, as `String`).  Each Python helper is
translated into an executable Lean definition; the theorems at the end of the
file settle the specification claims against these definitions.
-/

set_option maxRecDepth 4000

/-! ## Python string primitives

The character classes below (`str.isspace()`, the regex class `\d`,
`str.isdigit()`) are Unicode predicates in Python; each is translated as an
explicit range table generated from the CPython unicodedata tables, so that
the Lean definitions agree with the source on every character. -/

/-- A character for which Python `str.isspace()` is true: the set stripped by
`str.strip()`.  Generated from the CPython unicodedata tables. -/
def isPySpace (c : Char) : Bool :=
  let n := c.toNat
  (9 ≤ n && n ≤ 13) ||
  (28 ≤ n && n ≤ 32) ||
  n = 133 ||
  n = 160 ||
  n = 5760 ||
  (8192 ≤ n && n ≤ 8202) ||
  (8232 ≤ n && n ≤ 8233) ||
  n = 8239 ||
  n = 8287 ||
  n = 12288

/-- Python `str.strip()`: drop leading and trailing whitespace characters. -/
def pyStrip (s : List Char) : List Char :=
  ((s.dropWhile isPySpace).reverse.dropWhile isPySpace).reverse

/-- Python `str.rstrip(chars)`: drop trailing characters belonging to `chars`. -/
def pyRstrip (chars : List Char) (s : List Char) : List Char :=
  (s.reverse.dropWhile (fun c => c ∈ chars)).reverse

/-- Index of the last occurrence of a dot, if any (used for `Path.stem` /
`Path.suffix`). -/
def lastDotIdx : List Char → Option Nat
  | [] => none
  | c :: cs =>
    match lastDotIdx cs with
    | some i => some (i + 1)
    | none => if c = '.' then some 0 else none

/-- `pathlib.Path(name).suffix`: the part of the name from its last dot on,
provided that dot is neither the first nor the last character; else empty. -/
def pySuffix (name : List Char) : List Char :=
  match lastDotIdx name with
  | some i => if 0 < i ∧ i < name.length - 1 then name.drop i else []
  | none => []

/-- `pathlib.Path(name).stem`: the name with `pySuffix` removed. -/
def pyStem (name : List Char) : List Char :=
  match lastDotIdx name with
  | some i => if 0 < i ∧ i < name.length - 1 then name.take i else name
  | none => name

/-- Substring test, modelling the Python expression `pat in s`. -/
def containsSeq : List Char → List Char → Bool
  | [], pat => pat.isEmpty
  | s@(_ :: cs), pat => decide (s.take pat.length = pat) || containsSeq cs pat

/-- The literal style-name marker searched for by `parse_docx`. -/
def headingWord : List Char := ['H', 'e', 'a', 'd', 'i', 'n', 'g']

/-- Python `style.replace("Heading", "")`: remove every (non-overlapping,
leftmost-first) occurrence of the marker. -/
def removeAllHeading : List Char → List Char
  | 'H' :: 'e' :: 'a' :: 'd' :: 'i' :: 'n' :: 'g' :: rest => removeAllHeading rest
  | c :: cs => c :: removeAllHeading cs
  | [] => []

/-- The decimal value of a Unicode decimal digit (category Nd): Python's
regex class `\d` (for str patterns) and the digit positions read by `int()`
are exactly these characters, and each Nd range is an aligned run of the
values 0 to 9.  Generated from the CPython unicodedata tables. -/
def ndDigitVal (c : Char) : Option Nat :=
  let n := c.toNat
  if 48 ≤ n && n ≤ 57 then some ((n - 48) % 10)
  else if 1632 ≤ n && n ≤ 1641 then some ((n - 1632) % 10)
  else if 1776 ≤ n && n ≤ 1785 then some ((n - 1776) % 10)
  else if 1984 ≤ n && n ≤ 1993 then some ((n - 1984) % 10)
  else if 2406 ≤ n && n ≤ 2415 then some ((n - 2406) % 10)
  else if 2534 ≤ n && n ≤ 2543 then some ((n - 2534) % 10)
  else if 2662 ≤ n && n ≤ 2671 then some ((n - 2662) % 10)
  else if 2790 ≤ n && n ≤ 2799 then some ((n - 2790) % 10)
  else if 2918 ≤ n && n ≤ 2927 then some ((n - 2918) % 10)
  else if 3046 ≤ n && n ≤ 3055 then some ((n - 3046) % 10)
  else if 3174 ≤ n && n ≤ 3183 then some ((n - 3174) % 10)
  else if 3302 ≤ n && n ≤ 3311 then some ((n - 3302) % 10)
  else if 3430 ≤ n && n ≤ 3439 then some ((n - 3430) % 10)
  else if 3558 ≤ n && n ≤ 3567 then some ((n - 3558) % 10)
  else if 3664 ≤ n && n ≤ 3673 then some ((n - 3664) % 10)
  else if 3792 ≤ n && n ≤ 3801 then some ((n - 3792) % 10)
  else if 3872 ≤ n && n ≤ 3881 then some ((n - 3872) % 10)
  else if 4160 ≤ n && n ≤ 4169 then some ((n - 4160) % 10)
  else if 4240 ≤ n && n ≤ 4249 then some ((n - 4240) % 10)
  else if 6112 ≤ n && n ≤ 6121 then some ((n - 6112) % 10)
  else if 6160 ≤ n && n ≤ 6169 then some ((n - 6160) % 10)
  else if 6470 ≤ n && n ≤ 6479 then some ((n - 6470) % 10)
  else if 6608 ≤ n && n ≤ 6617 then some ((n - 6608) % 10)
  else if 6784 ≤ n && n ≤ 6793 then some ((n - 6784) % 10)
  else if 6800 ≤ n && n ≤ 6809 then some ((n - 6800) % 10)
  else if 6992 ≤ n && n ≤ 7001 then some ((n - 6992) % 10)
  else if 7088 ≤ n && n ≤ 7097 then some ((n - 7088) % 10)
  else if 7232 ≤ n && n ≤ 7241 then some ((n - 7232) % 10)
  else if 7248 ≤ n && n ≤ 7257 then some ((n - 7248) % 10)
  else if 42528 ≤ n && n ≤ 42537 then some ((n - 42528) % 10)
  else if 43216 ≤ n && n ≤ 43225 then some ((n - 43216) % 10)
  else if 43264 ≤ n && n ≤ 43273 then some ((n - 43264) % 10)
  else if 43472 ≤ n && n ≤ 43481 then some ((n - 43472) % 10)
  else if 43504 ≤ n && n ≤ 43513 then some ((n - 43504) % 10)
  else if 43600 ≤ n && n ≤ 43609 then some ((n - 43600) % 10)
  else if 44016 ≤ n && n ≤ 44025 then some ((n - 44016) % 10)
  else if 65296 ≤ n && n ≤ 65305 then some ((n - 65296) % 10)
  else if 66720 ≤ n && n ≤ 66729 then some ((n - 66720) % 10)
  else if 68912 ≤ n && n ≤ 68921 then some ((n - 68912) % 10)
  else if 69734 ≤ n && n ≤ 69743 then some ((n - 69734) % 10)
  else if 69872 ≤ n && n ≤ 69881 then some ((n - 69872) % 10)
  else if 69942 ≤ n && n ≤ 69951 then some ((n - 69942) % 10)
  else if 70096 ≤ n && n ≤ 70105 then some ((n - 70096) % 10)
  else if 70384 ≤ n && n ≤ 70393 then some ((n - 70384) % 10)
  else if 70736 ≤ n && n ≤ 70745 then some ((n - 70736) % 10)
  else if 70864 ≤ n && n ≤ 70873 then some ((n - 70864) % 10)
  else if 71248 ≤ n && n ≤ 71257 then some ((n - 71248) % 10)
  else if 71360 ≤ n && n ≤ 71369 then some ((n - 71360) % 10)
  else if 71472 ≤ n && n ≤ 71481 then some ((n - 71472) % 10)
  else if 71904 ≤ n && n ≤ 71913 then some ((n - 71904) % 10)
  else if 72016 ≤ n && n ≤ 72025 then some ((n - 72016) % 10)
  else if 72784 ≤ n && n ≤ 72793 then some ((n - 72784) % 10)
  else if 73040 ≤ n && n ≤ 73049 then some ((n - 73040) % 10)
  else if 73120 ≤ n && n ≤ 73129 then some ((n - 73120) % 10)
  else if 92768 ≤ n && n ≤ 92777 then some ((n - 92768) % 10)
  else if 92864 ≤ n && n ≤ 92873 then some ((n - 92864) % 10)
  else if 93008 ≤ n && n ≤ 93017 then some ((n - 93008) % 10)
  else if 120782 ≤ n && n ≤ 120831 then some ((n - 120782) % 10)
  else if 123200 ≤ n && n ≤ 123209 then some ((n - 123200) % 10)
  else if 123632 ≤ n && n ≤ 123641 then some ((n - 123632) % 10)
  else if 125264 ≤ n && n ≤ 125273 then some ((n - 125264) % 10)
  else if 130032 ≤ n && n ≤ 130041 then some ((n - 130032) % 10)
  else none


/-- A character of the regex class `\d`: a Unicode decimal digit. -/
def isNdDigit (c : Char) : Bool := (ndDigitVal c).isSome

/-- The characters accepted by Python `str.isdigit()` beyond the decimal
digits (numeric-type Digit: superscripts, circled digits and similar).
Generated from the CPython unicodedata tables. -/
def isDigitExtra (c : Char) : Bool :=
  let n := c.toNat
  (178 ≤ n && n ≤ 179) ||
  n = 185 ||
  (4969 ≤ n && n ≤ 4977) ||
  n = 6618 ||
  n = 8304 ||
  (8308 ≤ n && n ≤ 8313) ||
  (8320 ≤ n && n ≤ 8329) ||
  (9312 ≤ n && n ≤ 9320) ||
  (9332 ≤ n && n ≤ 9340) ||
  (9352 ≤ n && n ≤ 9360) ||
  n = 9450 ||
  (9461 ≤ n && n ≤ 9469) ||
  n = 9471 ||
  (10102 ≤ n && n ≤ 10110) ||
  (10112 ≤ n && n ≤ 10120) ||
  (10122 ≤ n && n ≤ 10130) ||
  (68160 ≤ n && n ≤ 68163) ||
  (69216 ≤ n && n ≤ 69224) ||
  (69714 ≤ n && n ≤ 69722) ||
  (127232 ≤ n && n ≤ 127242)

/-- A character for which Python `str.isdigit()` is true. -/
def isPyDigitChar (c : Char) : Bool := isNdDigit c || isDigitExtra c

/-- Python `str.isdigit()`: nonempty and every character digit-like. -/
def pyIsdigit (s : List Char) : Bool :=
  !s.isEmpty && s.all isPyDigitChar

/-- Python `int(...)` applied to a string accepted by `str.isdigit()` (the
only way it is reached in the source): it succeeds exactly when every
character is a Unicode decimal digit (category Nd), returning the number
formed from the digits' decimal values, and raises ValueError on the
`isdigit`-true characters outside Nd (such as superscripts), modelled as
`none`. -/
def pyInt (s : List Char) : Option Nat :=
  if s.isEmpty then none
  else s.foldl (fun a c =>
    match a, ndDigitVal c with
    | some n, some d => some (10 * n + d)
    | _, _ => none) (some 0)

/-! ## TableFlattener (`_parse_table` and the inline flattening of `parse_xlsx`) -/

/-- Cell normalization done by `_parse_table`:
`cell.text.strip().replace("\n", " ")`. -/
def cellText (s : List Char) : List Char :=
  (pyStrip s).map (fun c => if c = '\n' then ' ' else c)

/-- One flattened table row: `"| " + " | ".join(cells) + " |"`. -/
def rowLine (cells : List (List Char)) : List Char :=
  "| ".data ++ List.intercalate " | ".data cells ++ " |".data

/-- The synthetic separator line with `n` dash columns:
`"| " + " | ".join(["---"] * n) + " |"`. -/
def sepLine (n : Nat) : List Char :=
  "| ".data ++ List.intercalate " | ".data (List.replicate n "---".data) ++ " |".data

/-- Body of `_parse_table`: one line per row, with the separator inserted at
index 1 when there is at least one row; the dash count is the first row's
cell count (`len(table.rows[0].cells)`). -/
def flattenGrid (grid : List (List (List Char))) : List (List Char) :=
  let rows := grid.map rowLine
  if 1 ≤ rows.length then
    rows.take 1 ++ [sepLine (grid.headD []).length] ++ rows.drop 1
  else rows

/-- `_parse_table`: flatten the (cell-normalized) grid and join with newlines. -/
def parse_table (raw : List (List (List Char))) : List Char :=
  List.intercalate ['\n'] (flattenGrid (raw.map (fun r => r.map cellText)))

/-- Spreadsheet cell conversion: `str(c) if c is not None else ""` (the
stringified value is the model's cell content). -/
def xlsxCell (c : Option (List Char)) : List Char := c.getD []

/-- Python truthiness test `any(cells)`: some cell is a nonempty string. -/
def xlsxRetainRow (cells : List (List Char)) : Bool :=
  cells.any (fun c => !c.isEmpty)

/-- Number of pipe characters in a line (Python `rows[0].count("|")`). -/
def countPipes (s : List Char) : Nat := s.count '|'

/-- The inline flattening of `parse_xlsx`: keep only rows with some nonempty
cell, render each as a line, and if any line survives insert a separator at
index 1 whose dash count is `rows[0].count("|") - 1`. -/
def xlsxFlattenRows (grid : List (List (List Char))) : List (List Char) :=
  let rows := (grid.filter xlsxRetainRow).map rowLine
  if rows.isEmpty then []
  else rows.take 1 ++ [sepLine (countPipes (rows.headD []) - 1)] ++ rows.drop 1

/-- The parts contributed by one sheet in `parse_xlsx`: the sheet heading, then
the flattened table block when at least one row was retained. -/
def sheetParts (sheet : List Char × List (List (Option (List Char)))) : List (List Char) :=
  let grid := sheet.2.map (fun r => r.map xlsxCell)
  let rows := xlsxFlattenRows grid
  ("## Sheet: ".data ++ sheet.1) :: (if rows.isEmpty then [] else [List.intercalate ['\n'] rows])

/-- `parse_xlsx`: concatenate every sheet's parts and join with blank lines. -/
def parse_xlsx (wb : List (List Char × List (List (Option (List Char))))) : List Char :=
  List.intercalate "\n\n".data (wb.flatMap sheetParts)

/-! ## Round-trip splitting used to state the round-trip claim -/

/-- Remove a leading literal, Python `str.removeprefix` style. -/
def dropLead (p s : List Char) : List Char :=
  if s.take p.length = p then s.drop p.length else s

/-- Remove a trailing literal, Python `str.removesuffix` style. -/
def dropTail (p s : List Char) : List Char :=
  if p.length ≤ s.length ∧ s.drop (s.length - p.length) = p then
    s.take (s.length - p.length)
  else s

/-- Python `str.split(" | ")`: split on non-overlapping leftmost occurrences of
the three-character separator. -/
def splitSep : List Char → List (List Char)
  | [] => [[]]
  | c :: cs =>
    if (c :: cs).take 3 = " | ".data then [] :: splitSep (cs.drop 2)
    else
      match splitSep cs with
      | h :: t => (c :: h) :: t
      | [] => [[c]]
termination_by s => s.length
decreasing_by
  · simp only [List.length_cons]
    have := List.length_drop 2 cs
    omega
  · simp

/-- The re-splitting procedure of the round-trip claim: trim the leading
pipe-space and trailing space-pipe, then split on the cell separator. -/
def roundTripLine (line : List Char) : List (List Char) :=
  splitSep (dropTail " |".data (dropLead "| ".data line))

/-! ## DocumentBodyWalker (`parse_docx`) -/

/-- A node of the document body, in body order.  Paragraph and table nodes
carry the element identity used to resolve them against the separate
`doc.paragraphs` / `doc.tables` collections; `other` covers body elements
whose tag is neither `p` nor `tbl`. -/
inductive BodyElem where
  | p (id : Nat)
  | tbl (id : Nat)
  | other
deriving DecidableEq

/-- A paragraph of `doc.paragraphs`: element identity, resolved style name
(empty when `para.style` is None) and raw text. -/
structure Para where
  id : Nat
  style : List Char
  text : List Char
deriving DecidableEq

/-- A table of `doc.tables`: element identity and raw cell texts. -/
structure DocxTable where
  id : Nat
  cells : List (List (List Char))
deriving DecidableEq

/-- A word-processing document: the ordered body plus the two content
collections that must be matched back by element identity. -/
structure DocxDoc where
  body : List BodyElem
  paragraphs : List Para
  tables : List DocxTable
deriving DecidableEq

/-- The heading marker computed by `parse_docx` for a style name: empty
(`some []`) unless the style contains "Heading"; then, with
`level = style.replace("Heading", "").strip()`, the marker is
`"#" * int(level) + " "` when `level.isdigit()` holds — where `none` records
the ValueError raised by `int(level)` on the `isdigit`-true strings that are
not all decimal digits — and `"## "` otherwise. -/
def headingMark (style : List Char) : Option (List Char) :=
  if containsSeq style headingWord then
    let level := pyStrip (removeAllHeading style)
    if pyIsdigit level then
      match pyInt level with
      | some n => some (List.replicate n '#' ++ [' '])
      | none => none
    else some "## ".data
  else some []

/-- The text unit contributed by one body element: resolve the element in the
matching collection, then render it (nothing for an unmatched element, an
empty-text paragraph, or a non-content element).  The source computes the
heading prefix before testing the text, so a style whose heading level makes
`int` raise yields `none` here even for empty text; `docxRaises` below
records that in the source this exception aborts the whole file's parse. -/
def nodeEmit (doc : DocxDoc) : BodyElem → Option (List Char)
  | .p i =>
    match doc.paragraphs.find? (fun pa => pa.id = i) with
    | some pa =>
      match headingMark pa.style with
      | some mark =>
        let text := pyStrip pa.text
        if text.isEmpty then none else some (mark ++ text)
      | none => none
    | none => none
  | .tbl i =>
    match doc.tables.find? (fun t => t.id = i) with
    | some t => some (parse_table t.cells)
    | none => none
  | .other => none

/-- Does the body walk raise: some paragraph node of the body resolves to a
style whose heading level makes `int` raise ValueError.  In the source this
exception propagates out of `parse_docx`, the per-file handler reports the
file failed and no output is written; `parse_docx_parts`/`parse_docx` below
describe the runs where this flag is false. -/
def docxRaises (doc : DocxDoc) : Bool :=
  doc.body.any (fun e =>
    match e with
    | .p i =>
      match doc.paragraphs.find? (fun pa => pa.id = i) with
      | some pa => (headingMark pa.style).isNone
      | none => false
    | _ => false)

/-- The ordered list of parts accumulated by `parse_docx`. -/
def parse_docx_parts (doc : DocxDoc) : List (List Char) :=
  doc.body.filterMap (nodeEmit doc)

/-- `parse_docx`: join the parts with blank lines. -/
def parse_docx (doc : DocxDoc) : List Char :=
  List.intercalate "\n\n".data (parse_docx_parts doc)

/-! ## VersionKeyExtractor (`extract_version_key`)

The pattern compiled by the source is
`[（(]?(\d{4})[）)]?(?=\.\w+$|$)` and it is applied with `re.search` to the
Path stem.  The translation below implements the pattern with its
backtracking order (both optional parentheses are greedy) and the
leftmost-position search loop.  `\d` is the Unicode decimal digits
(`isNdDigit`), and `$` (no MULTILINE flag) matches at the end of the string
or just before a single trailing newline.  `\w`, which in Python covers all
Unicode word characters, is modelled over the ranges occurring in this
repository (alphanumerics, underscore, CJK ideographs); the theorems below
only exercise it on dot-free stems, where the `\.\w+$` branch of the
lookahead cannot fire, so none of their statements depends on the `\w`
class. -/

/-- The class `[（(]`. -/
def openParen (c : Char) : Bool := c = '(' || c = '（'

/-- The class `[）)]`. -/
def closeParen (c : Char) : Bool := c = ')' || c = '）'

/-- A word character for the lookahead. -/
def isWordChar (c : Char) : Bool :=
  c.isAlphanum || c = '_' || (0x4e00 ≤ c.toNat && c.toNat ≤ 0x9fff)

/-- The lookahead `(?=\.\w+$|$)` at the current position: either a dot
followed by a nonempty run of word characters after which `$` matches, or a
position where `$` matches directly — `$` holds at the end of the string or
just before a trailing newline.  (The greedy `\w+` must reach the `$`
position, since a word character is neither a newline nor the end.) -/
def lookaheadOk (rest : List Char) : Bool :=
  (match rest with
   | c :: cs =>
     c = '.' && (let ws := cs.takeWhile isWordChar
       !ws.isEmpty &&
         (decide (cs.drop ws.length = []) || decide (cs.drop ws.length = ['\n'])))
   | [] => false) ||
  (decide (rest = []) || decide (rest = ['\n']))

/-- After the digit group: optionally (greedily) consume one closing
parenthesis, then require the lookahead. -/
def afterDigits (rest : List Char) : Bool :=
  (match rest with
   | c :: cs => closeParen c && lookaheadOk cs
   | [] => false) || lookaheadOk rest

/-- The group `(\d{4})`: exactly four Unicode decimal digits at the head. -/
def try4 : List Char → Option (List Char × List Char)
  | a :: b :: c :: d :: rest =>
    if isNdDigit a && isNdDigit b && isNdDigit c && isNdDigit d then
      some ([a, b, c, d], rest)
    else none
  | _ => none

/-- The pattern without its optional opening parenthesis. -/
def matchNoParen (s : List Char) : Option (List Char) :=
  match try4 s with
  | some (g, rest) => if afterDigits rest then some g else none
  | none => none

/-- The whole pattern at one position: greedily try to consume an opening
parenthesis first, falling back to the bare pattern. -/
def matchAt (s : List Char) : Option (List Char) :=
  match s with
  | c :: cs =>
    if openParen c then
      match matchNoParen cs with
      | some g => some g
      | none => matchNoParen s
    else matchNoParen s
  | [] => none

/-- `re.search`: try each position from the left, returning the match start
and the digit group of the first success. -/
def regexSearchAux : List Char → Nat → Option (Nat × List Char)
  | [], _ => none
  | s@(_ :: rest), i =>
    match matchAt s with
    | some g => some (i, g)
    | none => regexSearchAux rest (i + 1)

/-- Search the whole string from position 0. -/
def regexSearch (s : List Char) : Option (Nat × List Char) := regexSearchAux s 0

/-- The characters stripped from the base name: `rstrip("（(） )")`. -/
def stripSet : List Char := ['（', '(', '）', ' ', ')']

/-- `extract_version_key`: split the file name into stem and suffix, search
the stem for the version pattern; on a match the base is the text before the
match start with trailing separators stripped plus the suffix, else the
original name, with an empty version token. -/
def extract_version_key (filename : List Char) : List Char × List Char :=
  let stem := pyStem filename
  let sfx := pySuffix filename
  match regexSearch stem with
  | some (st, ver) => (pyRstrip stripSet (stem.take st) ++ sfx, ver)
  | none => (stem ++ sfx, [])

/-! ## RevisionSelector (`filter_latest_versions`)

File paths are modelled as `String` so that the final `sorted(result)` can use
the linear order on `String` (Python compares POSIX paths by their string). -/

/-- Lexicographic comparison of strings by code point, as Python compares
strings: the ordering used by `sort` and `sorted` in the source. -/
def lexLe : List Char → List Char → Bool
  | [], _ => true
  | _ :: _, [] => false
  | a :: as, b :: bs =>
    if a.toNat < b.toNat then true
    else if b.toNat < a.toNat then false
    else lexLe as bs

/-- Strict version of `lexLe`. -/
def lexLt (a b : List Char) : Bool := !(lexLe b a)

/-- `Path(p).name`: the component after the last slash. -/
def pyName (p : String) : String :=
  String.mk ((p.data.reverse.takeWhile (fun c => c ≠ '/')).reverse)

/-- `extract_version_key` on a `String` file name. -/
def extractVK (s : String) : String × String :=
  let r := extract_version_key s.data
  (String.mk r.1, String.mk r.2)

/-- The base identity of a file path (the grouping key). -/
def baseOf (fp : String) : String := (extractVK (pyName fp)).1

/-- The version token of a file path. -/
def verOf (fp : String) : String := (extractVK (pyName fp)).2

/-- Append one `(version, path)` entry to its group, keeping the
insertion-ordered group list of the Python `defaultdict`. -/
def addToGroup (gs : List (String × List (String × String))) (b : String)
    (e : String × String) : List (String × List (String × String)) :=
  match gs with
  | [] => [(b, [e])]
  | (b', es) :: rest =>
    if b' = b then (b', es ++ [e]) :: rest else (b', es) :: addToGroup rest b e

/-- Build the groups map, in first-encounter key order. -/
def buildGroups (fps : List String) : List (String × List (String × String)) :=
  fps.foldl (fun gs fp => addToGroup gs (baseOf fp) (verOf fp, fp)) []

/-- The descending, stable sort `versions.sort(key=lambda x: x[0], reverse=True)`. -/
def sortVersionsDesc (vs : List (String × String)) : List (String × String) :=
  List.insertionSort (fun a b => lexLe b.1.data a.1.data = true) vs

/-- One `[SKIP]` diagnostic: the group base, the kept file name and the
skipped file names. -/
structure LogEntry where
  base : String
  kept : String
  skipped : List String
deriving DecidableEq

/-- Selection within one group: a singleton group is kept unconditionally;
a larger group is sorted by version descending, its head kept and the rest
reported skipped.  (Groups are never empty; the empty case is dead.) -/
def chooseFromGroup (b : String) (vs : List (String × String)) :
    String × Option LogEntry :=
  match vs with
  | [v] => (v.2, none)
  | _ =>
    match sortVersionsDesc vs with
    | [] => ("", none)
    | latest :: rest =>
      (latest.2, some ⟨b, pyName latest.2, rest.map (fun v => pyName v.2)⟩)

/-- `filter_latest_versions`: group, select per group, and return the
selected paths sorted, together with the emitted diagnostics. -/
def filter_latest_versions (fps : List String) : List String × List LogEntry :=
  let picked := (buildGroups fps).map (fun g => chooseFromGroup g.1 g.2)
  (List.insertionSort (fun a b : String => lexLe a.data b.data = true)
    (picked.map (fun x => x.1)),
   picked.filterMap (fun x => x.2))

/-! ## OutputNamer (`make_unique_path`)

The file system is modelled by the list of existing paths.  The decimal
rendering of the counter is `natToChars`. -/

/-- One decimal digit character. -/
def digitChar (n : Nat) : Char :=
  match n with
  | 0 => '0' | 1 => '1' | 2 => '2' | 3 => '3' | 4 => '4'
  | 5 => '5' | 6 => '6' | 7 => '7' | 8 => '8' | _ => '9'

/-- Decimal rendering of a natural number, as Python renders the counter. -/
def natToChars (n : Nat) : List Char :=
  if _h : n < 10 then [digitChar n] else natToChars (n / 10) ++ [digitChar (n % 10)]
decreasing_by exact Nat.div_lt_self (by omega) (by omega)

/-- Decimal reading back, a left inverse of `natToChars`. -/
def charsToNat (s : List Char) : Nat :=
  s.foldl (fun a c => 10 * a + (c.toNat - 48)) 0

theorem charsToNat_append (xs : List Char) (c : Char) :
    charsToNat (xs ++ [c]) = 10 * charsToNat xs + (c.toNat - 48) := by
  simp [charsToNat, List.foldl_append]

theorem digitChar_toNat (n : Nat) (h : n < 10) : (digitChar n).toNat - 48 = n := by
  interval_cases n <;> decide

theorem charsToNat_natToChars (n : Nat) : charsToNat (natToChars n) = n := by
  induction n using Nat.strong_induction_on with
  | _ n ih =>
    rw [natToChars]
    split
    · simp [charsToNat, digitChar_toNat n (by omega)]
    · rename_i h
      rw [charsToNat_append, ih (n / 10) (Nat.div_lt_self (by omega) (by omega)),
        digitChar_toNat (n % 10) (Nat.mod_lt n (by omega))]
      omega

theorem natToChars_injective : Function.Injective natToChars := by
  intro a b h
  have := congrArg charsToNat h
  rwa [charsToNat_natToChars, charsToNat_natToChars] at this

/-- The first candidate path `output_dir / f"{name}_{suffix}.txt"`. -/
def basePath (dir nm sfx : List Char) : List Char :=
  dir ++ "/".data ++ nm ++ "_".data ++ sfx ++ ".txt".data

/-- The numbered candidate `output_dir / f"{name}_{suffix}_{c}.txt"`. -/
def candPath (dir nm sfx : List Char) (c : Nat) : List Char :=
  dir ++ "/".data ++ nm ++ "_".data ++ sfx ++ "_".data ++ natToChars c ++ ".txt".data

theorem candPath_injective (dir nm sfx : List Char) :
    Function.Injective (candPath dir nm sfx) := by
  intro a b h
  unfold candPath at h
  repeat rw [List.append_assoc] at h
  have h1 := List.append_cancel_left h
  have h2 := List.append_cancel_left h1
  have h3 := List.append_cancel_left h2
  have h4 := List.append_cancel_left h3
  have h5 := List.append_cancel_left h4
  have h6 := List.append_cancel_left h5
  exact natToChars_injective (List.append_cancel_right h6)

/-- The while loop of `make_unique_path` terminates: some counter gives a
candidate that is not among the existing paths (pigeonhole over the finitely
many existing paths). -/
theorem candidate_exists (ex : List (List Char)) (dir nm sfx : List Char) :
    ∃ c, candPath dir nm sfx (c + 2) ∉ ex := by
  by_contra hall
  push_neg at hall
  set f : Nat → List Char := fun c => candPath dir nm sfx (c + 2) with hf
  have hinj : Function.Injective f := fun a b h => by
    have := candPath_injective dir nm sfx h
    omega
  set L : List (List Char) := (List.range (ex.length + 1)).map f with hL
  have hnodup : L.Nodup := (List.nodup_range _).map hinj
  have hsub : L ⊆ ex := by
    intro x hx
    rw [hL, List.mem_map] at hx
    obtain ⟨c, _, rfl⟩ := hx
    exact hall c
  have hcard : L.length ≤ ex.length := by
    calc L.length = L.toFinset.card := (List.toFinset_card_of_nodup hnodup).symm
    _ ≤ ex.toFinset.card := Finset.card_le_card (fun x hx => by
        rw [List.mem_toFinset] at *
        exact hsub (by simpa using hx))
    _ ≤ ex.length := ex.toFinset_card_le
  rw [hL, List.length_map, List.length_range] at hcard
  omega

/-- `make_unique_path`: return the base candidate when it does not exist,
else the first numbered candidate (counter starting at 2) that does not. -/
def make_unique_path (ex : List (List Char)) (dir nm sfx : List Char) : List Char :=
  if basePath dir nm sfx ∈ ex then
    candPath dir nm sfx (Nat.find (candidate_exists ex dir nm sfx) + 2)
  else basePath dir nm sfx

/-! ## Claim-side definitions

These definitions follow the wording of the specification claims (not the
source); they are used to compare the claimed behavior with the behavior of
the translated source functions. -/

/-- Claim reading of the numeric suffix of a style name: its trailing run of
decimal-digit characters. -/
def trailingDigits (s : List Char) : List Char :=
  (s.reverse.takeWhile isNdDigit).reverse

/-- Four decimal-digit characters. -/
def digit4 (l : List Char) : Bool :=
  decide (l.length = 4) && l.all isNdDigit

/-- Does a string end with a 4-digit token? -/
def endsWith4 (s : List Char) : Bool :=
  digit4 (s.drop (s.length - 4)) && decide (4 ≤ s.length)

/-- Does a string end with a 4-digit token wrapped in the given parentheses? -/
def endsWithWrapped (s : List Char) (o c : Char) : Bool :=
  decide (6 ≤ s.length) &&
  (match s.drop (s.length - 6) with
   | [a, d1, d2, d3, d4, b] => a = o && b = c && [d1, d2, d3, d4].all isNdDigit
   | _ => false)

/-- Claim wording: a trailing 4-digit token, optionally wrapped in half-width
or full-width parentheses, at the end of the given string. -/
def claimTokenAtEnd (s : List Char) : Bool :=
  endsWith4 s || endsWithWrapped s '(' ')' || endsWithWrapped s '（' '）'

/-- Claim wording for the whole file name: the token sits immediately before
the extension boundary (the `pathlib` suffix) or at the end of the name. -/
def claimTrailingToken (name : List Char) : Bool :=
  claimTokenAtEnd (pyStem name) || claimTokenAtEnd name

/-- A stem that the translated pattern can accept at its end: it ends with
four digits, optionally followed by one closing parenthesis.  Used to state
the no-match half of the amended version-key claim. -/
def stemHasTokenEnd (s : List Char) : Bool :=
  endsWith4 s ||
  (match s.getLast? with
   | some c => closeParen c && endsWith4 s.dropLast
   | none => false)

/-- The synthetic document of the body-walker claim:
body = [paragraph "Intro", 2x2 table, paragraph "Heading1" with style
"Heading 1"], with the content collections resolved by element identity. -/
def docExample : DocxDoc :=
  ⟨[.p 0, .tbl 0, .p 1],
   [⟨0, [], "Intro".data⟩, ⟨1, "Heading 1".data, "Heading1".data⟩],
   [⟨0, [[['a'], ['b']], [['c'], ['d']]]⟩]⟩

/-! ## Helper lemmas: table flattening -/

theorem intercalate_cons_cons (s a b : List Char) (l : List (List Char)) :
    List.intercalate s (a :: b :: l) = a ++ s ++ List.intercalate s (b :: l) := by
  simp [List.intercalate, List.intersperse_cons_cons]

theorem flattenGrid_cons (r : List (List Char)) (rs : List (List (List Char))) :
    flattenGrid (r :: rs) = rowLine r :: sepLine r.length :: rs.map rowLine := by
  simp [flattenGrid]

theorem count_pipe_intercalate (cells : List (List Char)) (hne : cells ≠ [])
    (hp : ∀ c ∈ cells, '|' ∉ c) :
    (List.intercalate " | ".data cells).count '|' = cells.length - 1 := by
  induction cells with
  | nil => exact absurd rfl hne
  | cons a l ih =>
    cases l with
    | nil =>
      simp [List.intercalate, List.count_eq_zero.mpr (hp a (by simp))]
    | cons b m =>
      rw [intercalate_cons_cons, List.count_append, List.count_append,
        List.count_eq_zero.mpr (hp a (by simp)),
        ih (by simp) (fun c hc => hp c (List.mem_cons_of_mem a hc))]
      have hsep : (" | ".data).count '|' = 1 := by decide
      rw [hsep]
      simp only [List.length_cons]
      omega

theorem countPipes_rowLine (cells : List (List Char)) (hne : cells ≠ [])
    (hp : ∀ c ∈ cells, '|' ∉ c) :
    countPipes (rowLine cells) = cells.length + 1 := by
  unfold countPipes rowLine
  rw [List.count_append, List.count_append, count_pipe_intercalate cells hne hp]
  have h1 : ("| ".data).count '|' = 1 := by decide
  have h2 : (" |".data).count '|' = 1 := by decide
  rw [h1, h2]
  have : cells.length ≠ 0 := fun h => hne (List.length_eq_zero.mp h)
  omega

theorem splitSep_no_pipe (x : List Char) (h : '|' ∉ x) : splitSep x = [x] := by
  induction x with
  | nil => rw [splitSep]
  | cons c cs ih =>
    rw [splitSep]
    have hne : ¬((c :: cs).take 3 = " | ".data) := by
      intro heq
      have hsep : " | ".data = [' ', '|', ' '] := rfl
      rw [hsep] at heq
      cases cs with
      | nil => simp [List.take] at heq
      | cons d ds =>
        simp only [List.take, List.cons.injEq] at heq
        apply h
        rw [← heq.2.1]
        simp
    rw [if_neg hne, ih (fun hm => h (List.mem_cons_of_mem c hm))]

theorem splitSep_append_sep (x r : List Char) (h : '|' ∉ x) :
    splitSep (x ++ " | ".data ++ r) = x :: splitSep r := by
  induction x with
  | nil =>
    show splitSep (' ' :: '|' :: ' ' :: r) = [] :: splitSep r
    rw [splitSep]
    simp [List.take]
  | cons c cs ih =>
    have hstep : (c :: cs) ++ " | ".data ++ r = c :: (cs ++ " | ".data ++ r) := by
      simp
    rw [hstep, splitSep]
    have hne : ¬((c :: (cs ++ " | ".data ++ r)).take 3 = " | ".data) := by
      intro heq
      have hsep : " | ".data = [' ', '|', ' '] := rfl
      rw [hsep] at heq
      cases cs with
      | nil => simp [List.take] at heq
      | cons d ds =>
        simp only [List.cons_append, List.take, List.cons.injEq] at heq
        apply h
        rw [← heq.2.1]
        simp
    rw [if_neg hne]
    have ihx := ih (fun hm => h (List.mem_cons_of_mem c hm))
    rw [ihx]

theorem splitSep_intercalate (cells : List (List Char)) (hne : cells ≠ [])
    (hp : ∀ c ∈ cells, '|' ∉ c) :
    splitSep (List.intercalate " | ".data cells) = cells := by
  induction cells with
  | nil => exact absurd rfl hne
  | cons a l ih =>
    cases l with
    | nil =>
      have h1 : List.intercalate " | ".data [a] = a := by simp [List.intercalate]
      rw [h1, splitSep_no_pipe a (hp a (by simp))]
    | cons b m =>
      rw [intercalate_cons_cons, splitSep_append_sep a _ (hp a (by simp)),
        ih (by simp) (fun c hc => hp c (List.mem_cons_of_mem a hc))]

theorem dropLead_exact (p rest : List Char) : dropLead p (p ++ rest) = rest := by
  unfold dropLead
  rw [List.take_left, if_pos rfl, List.drop_left]

theorem dropTail_exact (p front : List Char) : dropTail p (front ++ p) = front := by
  unfold dropTail
  have hsub : (front ++ p).length - p.length = front.length := by simp
  have hcond : p.length ≤ (front ++ p).length ∧
      (front ++ p).drop ((front ++ p).length - p.length) = p := by
    refine ⟨by simp, ?_⟩
    rw [hsub, List.drop_left]
  rw [if_pos hcond, hsub, List.take_left]

theorem roundTripLine_rowLine (cells : List (List Char))
    (hp : ∀ c ∈ cells, '|' ∉ c) (hne : cells ≠ []) :
    roundTripLine (rowLine cells) = cells := by
  unfold roundTripLine rowLine
  have hassoc : "| ".data ++ List.intercalate " | ".data cells ++ " |".data =
      "| ".data ++ (List.intercalate " | ".data cells ++ " |".data) := by simp
  rw [hassoc, dropLead_exact, dropTail_exact]
  exact splitSep_intercalate cells hne hp

theorem xlsxFlatten_eq_flatten (g : List (List (List Char)))
    (hall : ∀ row ∈ g, xlsxRetainRow row = true)
    (hp : ∀ c ∈ g.headD [], '|' ∉ c) :
    xlsxFlattenRows g = flattenGrid g := by
  have hfilter : g.filter xlsxRetainRow = g := List.filter_eq_self.mpr hall
  cases g with
  | nil => rfl
  | cons r rs =>
    have hr : r ≠ [] := by
      intro hrnil
      have := hall r (by simp)
      rw [hrnil] at this
      simp [xlsxRetainRow] at this
    have hpipe : ∀ c ∈ r, '|' ∉ c := by simpa using hp
    unfold xlsxFlattenRows
    rw [hfilter, flattenGrid_cons]
    simp only [List.map_cons, List.isEmpty_cons, Bool.false_eq_true, if_false,
      List.headD_cons, List.take_cons, List.take_zero, List.drop_succ_cons,
      List.drop_zero, countPipes_rowLine r hr hpipe]
    simp

/-! ## Claim C4 -/

/-- C4: for every non-empty grid (width taken from the first row), the table
flattening produces one pipe-delimited line per input row plus exactly one
synthetic separator line immediately after the first row, with as many dash
columns as the first row has cells; on [[a, b], [c, d]] the output is exactly
the three lines given in the claim. -/
theorem c4_table_flattening :
    (∀ (g : List (List (List Char))) (r : List (List Char)) (rs : List (List (List Char))),
        g = r :: rs →
        flattenGrid g = rowLine r :: sepLine r.length :: rs.map rowLine) ∧
    flattenGrid [[['a'], ['b']], [['c'], ['d']]] =
      ["| a | b |".data, "| --- | --- |".data, "| c | d |".data] := by
  constructor
  · rintro g r rs rfl
    exact flattenGrid_cons r rs
  · decide

/-- Witness for C4 at a concrete one-row grid. -/
theorem c4_witness :
    flattenGrid [[['x']]] = [rowLine [['x']], sepLine 1] :=
  c4_table_flattening.1 [[['x']]] [['x']] [] rfl

/-! ## Claim C5 -/

/-- C5 is refuted as stated: on the grid [["a|b"]] the docx flattening
(`_parse_table` body) and the xlsx inline flattening produce different text,
because the xlsx separator width is derived by counting pipe characters in
the rendered first line. -/
theorem c5_counterexample :
    List.intercalate ['\n'] (flattenGrid [[['a', '|', 'b']]]) ≠
      List.intercalate ['\n'] (xlsxFlattenRows [[['a', '|', 'b']]]) := by decide

/-- C5 (amended): the two flattenings agree, with identical output text
depending only on the grid, for every grid in which each row has a nonempty
cell (so the xlsx row filter keeps every row) and the first row contains no
pipe characters (so the xlsx pipe count recovers the first row's cell
count). -/
theorem c5_flatteners_agree :
    ∀ g : List (List (List Char)),
      (∀ row ∈ g, xlsxRetainRow row = true) →
      (∀ c ∈ g.headD [], '|' ∉ c) →
      xlsxFlattenRows g = flattenGrid g ∧
      List.intercalate ['\n'] (xlsxFlattenRows g) =
        List.intercalate ['\n'] (flattenGrid g) := by
  intro g h1 h2
  refine ⟨xlsxFlatten_eq_flatten g h1 h2, ?_⟩
  rw [xlsxFlatten_eq_flatten g h1 h2]

/-- Witness for C5 at the grid [["a"], ["b"]]. -/
theorem c5_witness :
    xlsxFlattenRows [[['a']], [['b']]] = flattenGrid [[['a']], [['b']]] ∧
    List.intercalate ['\n'] (xlsxFlattenRows [[['a']], [['b']]]) =
      List.intercalate ['\n'] (flattenGrid [[['a']], [['b']]]) :=
  c5_flatteners_agree [[['a']], [['b']]] (by decide) (by decide)

/-! ## Claim C6 -/

/-- C6 is refuted as stated: the grid [[]] is non-empty and contains no pipe
characters, yet re-splitting its only data line does not recover the
zero-cell row (the rendered line of a zero-cell row coincides with the
rendered line of a single-empty-cell row). -/
theorem c6_counterexample :
    flattenGrid [[]] = [rowLine [], sepLine 0] ∧
    roundTripLine (rowLine []) ≠ [] := by
  refine ⟨by decide, ?_⟩
  have h0 : dropTail " |".data (dropLead "| ".data (rowLine [])) = [] := by decide
  have h : roundTripLine (rowLine []) = [[]] := by
    rw [roundTripLine, h0]
    simp [splitSep]
  rw [h]
  simp

/-- C6 (amended): for every non-empty grid whose rows each contain at least
one cell and whose cells contain no pipe characters, the flattened block
consists of the separator (at index 1) plus exactly the rows' data lines, and
trimming the outer pipes of each data line and re-splitting on the cell
separator recovers that row's cells exactly. -/
theorem c6_roundtrip :
    ∀ g : List (List (List Char)), g ≠ [] →
      (∀ r ∈ g, r ≠ []) →
      (∀ r ∈ g, ∀ c ∈ r, '|' ∉ c) →
      (flattenGrid g).eraseIdx 1 = g.map rowLine ∧
      ∀ r ∈ g, roundTripLine (rowLine r) = r := by
  intro g hg hrow hpipe
  constructor
  · cases g with
    | nil => exact absurd rfl hg
    | cons r rs =>
      rw [flattenGrid_cons]
      rfl
  · intro r hr
    exact roundTripLine_rowLine r (hpipe r hr) (hrow r hr)

/-- Witness for C6 at the grid [["a", "b"], ["c", "d"]]. -/
theorem c6_witness :
    (flattenGrid [[['a'], ['b']], [['c'], ['d']]]).eraseIdx 1 =
      [[['a'], ['b']], [['c'], ['d']]].map rowLine ∧
    ∀ r ∈ [[['a'], ['b']], [['c'], ['d']]], roundTripLine (rowLine r) = r :=
  c6_roundtrip [[['a'], ['b']], [['c'], ['d']]] (by decide) (by decide) (by decide)

/-! ## Claim C8 -/

/-- C8 is refuted as stated for word-processing tables: a zero-row table is
indeed not flattened into any table line, but `parse_docx` still appends the
empty string to its parts, so an empty text unit is contributed (and the
serialized output gets two consecutive blank lines). -/
theorem c8_counterexample :
    parse_docx_parts ⟨[.p 0, .tbl 0, .p 1],
        [⟨0, [], ['a']⟩, ⟨1, [], ['b']⟩], [⟨0, []⟩]⟩ = [['a'], [], ['b']] ∧
    ([] : List Char) ∈ parse_docx_parts ⟨[.p 0, .tbl 0, .p 1],
        [⟨0, [], ['a']⟩, ⟨1, [], ['b']⟩], [⟨0, []⟩]⟩ ∧
    parse_docx ⟨[.p 0, .tbl 0, .p 1],
        [⟨0, [], ['a']⟩, ⟨1, [], ['b']⟩], [⟨0, []⟩]⟩ = "a\n\n\n\nb".data := by
  decide

/-- C8 (amended): a zero-row grid is never flattened into table lines: in
`parse_docx` a resolved zero-row table contributes exactly the empty text
unit (no pipe lines), and in `parse_xlsx` a sheet all of whose cells are
empty contributes only its heading line, with the table block omitted
entirely. -/
theorem c8_zero_row_grid :
    (∀ (doc : DocxDoc) (i : Nat) (t : DocxTable),
        doc.tables.find? (fun tb => tb.id = i) = some t → t.cells = [] →
        nodeEmit doc (.tbl i) = some []) ∧
    (∀ (nm : List Char) (rows : List (List (Option (List Char)))),
        (∀ row ∈ rows, ∀ c ∈ row, xlsxCell c = []) →
        sheetParts (nm, rows) = ["## Sheet: ".data ++ nm]) := by
  constructor
  · intro doc i t hfind hcells
    simp [nodeEmit, hfind, parse_table, hcells, flattenGrid, List.intercalate]
  · intro nm rows hall
    have hfilter : List.filter xlsxRetainRow
        (List.map (fun r => List.map xlsxCell r) rows) = [] := by
      rw [List.filter_eq_nil_iff]
      intro row hrow
      rw [List.mem_map] at hrow
      obtain ⟨raw, hraw, rfl⟩ := hrow
      intro hany
      unfold xlsxRetainRow at hany
      rw [List.any_eq_true] at hany
      obtain ⟨c, hc, hck⟩ := hany
      rw [List.mem_map] at hc
      obtain ⟨o, ho, rfl⟩ := hc
      rw [hall raw hraw o ho] at hck
      simp at hck
    simp only [sheetParts, xlsxFlattenRows]
    rw [hfilter]
    simp

/-- Witness for C8 at a document with one empty table and a one-sheet,
all-empty workbook. -/
theorem c8_witness :
    nodeEmit ⟨[.tbl 7], [], [⟨7, []⟩]⟩ (.tbl 7) = some [] ∧
    sheetParts (['S'], [[none, some []]]) = ["## Sheet: S".data] := by
  constructor
  · exact c8_zero_row_grid.1 ⟨[.tbl 7], [], [⟨7, []⟩]⟩ 7 ⟨7, []⟩ (by decide) rfl
  · exact c8_zero_row_grid.2 ['S'] [[none, some []]] (by decide)

/-! ## Claim C1 -/

/-- C1: the body walker emits blocks in exactly the original body order: the
blocks of an earlier body segment always precede the blocks of a later body
segment, and on the synthetic body [paragraph "Intro", 2x2 table,
paragraph "Heading1" with style "Heading 1"] the parts come out in exactly
that interleaved order, the third rendered as "# Heading1". -/
theorem c1_body_order :
    (∀ (doc : DocxDoc) (pre post : List BodyElem), doc.body = pre ++ post →
        parse_docx_parts doc =
          pre.filterMap (nodeEmit doc) ++ post.filterMap (nodeEmit doc)) ∧
    parse_docx_parts docExample =
      ["Intro".data, "| a | b |\n| --- | --- |\n| c | d |".data, "# Heading1".data] ∧
    parse_docx docExample =
      "Intro\n\n| a | b |\n| --- | --- |\n| c | d |\n\n# Heading1".data := by
  refine ⟨?_, by decide, by decide⟩
  intro doc pre post hbody
  unfold parse_docx_parts
  rw [hbody, List.filterMap_append]

/-- Witness for C1: the order-preservation part applied to the example body
split around the table node. -/
theorem c1_witness :
    parse_docx_parts docExample =
      [BodyElem.p 0].filterMap (nodeEmit docExample) ++
        [BodyElem.tbl 0, BodyElem.p 1].filterMap (nodeEmit docExample) :=
  c1_body_order.1 docExample [BodyElem.p 0] [BodyElem.tbl 0, BodyElem.p 1] rfl

/-! ## Claim C7 -/

/-- C7 is refuted as stated: the style name "3Heading" indicates a heading
(the walker tests substring containment) and has no numeric suffix, so the
claim requires the generic marker "## ", but the walker strips all
occurrences of "Heading" and parses the remaining "3", emitting "### ". -/
theorem c7_counterexample :
    containsSeq "3Heading".data headingWord = true ∧
    trailingDigits "3Heading".data = [] ∧
    nodeEmit ⟨[.p 0], [⟨0, "3Heading".data, ['x']⟩], []⟩ (.p 0) =
      some "### x".data ∧
    "### x".data ≠ "## x".data := by decide

/-- C7 (amended): for a paragraph node resolved by the walker, with
`level = style.replace("Heading", "").strip()`: if the style's heading
marker is computed without error, an empty trimmed text emits nothing;
when the style contains "Heading" and `int(level)` succeeds (every character
of the isdigit-true level a Unicode decimal digit, yielding `n`) the
nonempty text is prefixed by `n` hash characters and a space; when the
style contains "Heading" and `level.isdigit()` is false, the nonempty text
gets the generic "## " prefix; and when `level.isdigit()` holds but
`int(level)` raises ValueError (an isdigit-true character outside the
decimal digits, e.g. a superscript), the marker is `none`, the node
contributes no text unit, and the whole file's parse raises. -/
theorem c7_heading_marks :
    ∀ (doc : DocxDoc) (i : Nat) (pa : Para),
      doc.paragraphs.find? (fun q => q.id = i) = some pa →
      (pyStrip pa.text = [] → headingMark pa.style ≠ none →
        nodeEmit doc (.p i) = none) ∧
      (containsSeq pa.style headingWord = true →
        (∀ n, pyInt (pyStrip (removeAllHeading pa.style)) = some n →
          pyIsdigit (pyStrip (removeAllHeading pa.style)) = true →
          pyStrip pa.text ≠ [] →
          nodeEmit doc (.p i) =
            some (List.replicate n '#' ++ [' '] ++ pyStrip pa.text)) ∧
        (pyIsdigit (pyStrip (removeAllHeading pa.style)) = false →
          pyStrip pa.text ≠ [] →
          nodeEmit doc (.p i) = some ("## ".data ++ pyStrip pa.text)) ∧
        (pyIsdigit (pyStrip (removeAllHeading pa.style)) = true →
          pyInt (pyStrip (removeAllHeading pa.style)) = none →
          headingMark pa.style = none ∧ nodeEmit doc (.p i) = none ∧
          (BodyElem.p i ∈ doc.body → docxRaises doc = true))) := by
  intro doc i pa hfind
  constructor
  · intro hempty hmark
    rw [Ne, ← Option.isNone_iff_eq_none, Bool.not_eq_true,
      Option.isNone_eq_false_iff, Option.isSome_iff_exists] at hmark
    obtain ⟨mark, hmark⟩ := hmark
    simp [nodeEmit, hfind, hmark, hempty]
  · intro hheading
    refine ⟨?_, ?_, ?_⟩
    · intro n hint hdig hne
      have hmark : headingMark pa.style =
          some (List.replicate n '#' ++ [' ']) := by
        simp [headingMark, hheading, hdig, hint]
      simp [nodeEmit, hfind, hmark, List.isEmpty_iff, hne]
    · intro hdig hne
      have hmark : headingMark pa.style = some "## ".data := by
        simp [headingMark, hheading, hdig]
      simp [nodeEmit, hfind, hmark, List.isEmpty_iff, hne]
    · intro hdig hint
      have hmark : headingMark pa.style = none := by
        simp [headingMark, hheading, hdig, hint]
      refine ⟨hmark, by simp [nodeEmit, hfind, hmark], ?_⟩
      intro hmem
      unfold docxRaises
      rw [List.any_eq_true]
      refine ⟨BodyElem.p i, hmem, ?_⟩
      simp [hfind, hmark]

/-- Witness for C7 at a resolved paragraph with style "Heading 2" and text
"T". -/
theorem c7_witness :
    nodeEmit ⟨[.p 0], [⟨0, "Heading 2".data, ['T']⟩], []⟩ (.p 0) =
      some (List.replicate 2 '#' ++ [' '] ++ pyStrip ['T']) :=
  ((c7_heading_marks ⟨[.p 0], [⟨0, "Heading 2".data, ['T']⟩], []⟩ 0
      ⟨0, "Heading 2".data, ['T']⟩ (by decide)).2
    (by decide)).1 2 (by decide) (by decide) (by decide)

/-! ## Claim C9 -/

theorem make_unique_path_not_mem (ex : List (List Char)) (dir nm sfx : List Char) :
    make_unique_path ex dir nm sfx ∉ ex := by
  by_cases hb : basePath dir nm sfx ∈ ex
  · unfold make_unique_path
    rw [if_pos hb]
    exact Nat.find_spec (candidate_exists ex dir nm sfx)
  · unfold make_unique_path
    rw [if_neg hb]
    exact hb

theorem make_unique_path_of_mem (ex : List (List Char)) (dir nm sfx : List Char)
    (hb : basePath dir nm sfx ∈ ex) :
    ∃ n, 2 ≤ n ∧ make_unique_path ex dir nm sfx = candPath dir nm sfx n ∧
      ∀ m, 2 ≤ m → m < n → candPath dir nm sfx m ∈ ex := by
  refine ⟨Nat.find (candidate_exists ex dir nm sfx) + 2, by omega, ?_, ?_⟩
  · unfold make_unique_path
    rw [if_pos hb]
  · intro m h2 hlt
    have hmin := Nat.find_min (candidate_exists ex dir nm sfx)
      (m := m - 2) (by omega)
    have : m - 2 + 2 = m := by omega
    rw [this] at hmin
    exact not_not.mp hmin

/-- C9: the output namer proposes the base candidate first and walks the
numbered candidates from 2 until a free one: the result never collides with
an existing path, every skipped numbered candidate did exist, and two calls
against the same directory and base (the second seeing the result of the
first) return two distinct paths, both from the candidate family. -/
theorem c9_output_namer :
    ∀ (ex : List (List Char)) (dir nm sfx : List Char),
      (make_unique_path ex dir nm sfx ∉ ex) ∧
      (basePath dir nm sfx ∉ ex →
        make_unique_path ex dir nm sfx = basePath dir nm sfx) ∧
      (basePath dir nm sfx ∈ ex →
        ∃ n, 2 ≤ n ∧ make_unique_path ex dir nm sfx = candPath dir nm sfx n ∧
          ∀ m, 2 ≤ m → m < n → candPath dir nm sfx m ∈ ex) ∧
      (make_unique_path (ex ++ [make_unique_path ex dir nm sfx]) dir nm sfx ≠
          make_unique_path ex dir nm sfx ∧
        (∃ n, 2 ≤ n ∧
          make_unique_path (ex ++ [make_unique_path ex dir nm sfx]) dir nm sfx =
            candPath dir nm sfx n) ∧
        (make_unique_path ex dir nm sfx = basePath dir nm sfx ∨
          ∃ m, 2 ≤ m ∧ make_unique_path ex dir nm sfx = candPath dir nm sfx m)) := by
  intro ex dir nm sfx
  refine ⟨make_unique_path_not_mem ex dir nm sfx, ?_, ?_, ?_, ?_, ?_⟩
  · intro hb
    unfold make_unique_path
    rw [if_neg hb]
  · intro hb
    exact make_unique_path_of_mem ex dir nm sfx hb
  · intro heq
    have hmem := make_unique_path_not_mem
      (ex ++ [make_unique_path ex dir nm sfx]) dir nm sfx
    rw [heq] at hmem
    exact hmem (by simp)
  · have hb2 : basePath dir nm sfx ∈ ex ++ [make_unique_path ex dir nm sfx] := by
      by_cases hb : basePath dir nm sfx ∈ ex
      · exact List.mem_append_left _ hb
      · have h1 : make_unique_path ex dir nm sfx = basePath dir nm sfx := by
          unfold make_unique_path
          rw [if_neg hb]
        rw [h1]
        simp
    obtain ⟨n, hn2, hneq, _⟩ :=
      make_unique_path_of_mem (ex ++ [make_unique_path ex dir nm sfx]) dir nm sfx hb2
    exact ⟨n, hn2, hneq⟩
  · by_cases hb : basePath dir nm sfx ∈ ex
    · obtain ⟨m, hm2, hmeq, _⟩ := make_unique_path_of_mem ex dir nm sfx hb
      exact Or.inr ⟨m, hm2, hmeq⟩
    · refine Or.inl ?_
      unfold make_unique_path
      rw [if_neg hb]

/-- Witness for C9 at a concrete directory state. -/
theorem c9_witness :
    (make_unique_path ["d/a_x.txt".data] "d".data "a".data "x".data ∉
      ["d/a_x.txt".data]) ∧
    ("d/a_x.txt".data ∉ ["d/a_x.txt".data] →
      make_unique_path ["d/a_x.txt".data] "d".data "a".data "x".data =
        basePath "d".data "a".data "x".data) := by
  have h := c9_output_namer ["d/a_x.txt".data] "d".data "a".data "x".data
  refine ⟨h.1, ?_⟩
  have hb : basePath "d".data "a".data "x".data = "d/a_x.txt".data := by decide
  intro hnot
  rw [hb] at *
  exact absurd (by simp : "d/a_x.txt".data ∈ ["d/a_x.txt".data]) hnot

/-! ## Helper lemmas: revision groups -/

/-- Look a group up by its key. -/
def findGroup (gs : List (String × List (String × String))) (b : String) :
    List (String × String) :=
  match gs.find? (fun g => g.1 = b) with
  | some g => g.2
  | none => []

theorem findGroup_addToGroup_same (gs : List (String × List (String × String)))
    (b : String) (e : String × String) :
    findGroup (addToGroup gs b e) b = findGroup gs b ++ [e] := by
  induction gs with
  | nil => simp [addToGroup, findGroup, List.find?]
  | cons g rest ih =>
    by_cases hb : g.1 = b
    · obtain ⟨b', es⟩ := g
      simp only at hb
      subst hb
      simp [addToGroup, findGroup, List.find?]
    · obtain ⟨b', es⟩ := g
      simp only at hb
      simp only [addToGroup, if_neg hb]
      simp only [findGroup, List.find?]
      have : (decide (b' = b)) = false := by simpa using hb
      rw [this]
      exact ih

theorem findGroup_addToGroup_other (gs : List (String × List (String × String)))
    (b b' : String) (e : String × String) (hne : b' ≠ b) :
    findGroup (addToGroup gs b e) b' = findGroup gs b' := by
  induction gs with
  | nil =>
    simp only [addToGroup, findGroup, List.find?]
    have : (decide (b = b')) = false := by simpa using fun h => hne h.symm
    rw [this]
  | cons g rest ih =>
    obtain ⟨k, es⟩ := g
    by_cases hb : k = b
    · subst hb
      simp only [addToGroup, if_pos rfl]
      simp only [findGroup, List.find?]
      have hdec : (decide (k = b')) = false := by simpa using fun h => hne h.symm
      rw [hdec]
    · simp only [addToGroup, if_neg hb]
      simp only [findGroup, List.find?] at ih ⊢
      cases hkb : (decide (k = b') : Bool)
      · simp only [Bool.false_eq_true, if_false] at *
        exact ih
      · simp

theorem keys_addToGroup (gs : List (String × List (String × String)))
    (b : String) (e : String × String) :
    (addToGroup gs b e).map Prod.fst =
      if b ∈ gs.map Prod.fst then gs.map Prod.fst else gs.map Prod.fst ++ [b] := by
  induction gs with
  | nil => simp [addToGroup]
  | cons g rest ih =>
    obtain ⟨k, es⟩ := g
    by_cases hb : k = b
    · subst hb
      simp [addToGroup]
    · simp only [addToGroup, if_neg hb, List.map_cons, ih]
      have : (b ∈ k :: rest.map Prod.fst) ↔ (b ∈ rest.map Prod.fst) := by
        constructor
        · intro h
          rcases List.mem_cons.mp h with h1 | h2
          · exact absurd h1.symm hb
          · exact h2
        · exact fun h => List.mem_cons_of_mem _ h
      by_cases hmem : b ∈ rest.map Prod.fst
      · rw [if_pos hmem, if_pos (this.mpr hmem)]
      · rw [if_neg hmem, if_neg (fun h => hmem (this.mp h))]
        simp

theorem nodup_keys_addToGroup (gs : List (String × List (String × String)))
    (b : String) (e : String × String) (h : (gs.map Prod.fst).Nodup) :
    ((addToGroup gs b e).map Prod.fst).Nodup := by
  rw [keys_addToGroup]
  by_cases hmem : b ∈ gs.map Prod.fst
  · rwa [if_pos hmem]
  · rw [if_neg hmem]
    rw [List.nodup_append]
    exact ⟨h, List.nodup_singleton b, by simpa using hmem⟩

/-- Every member of a group carries the data of an input with that base. -/
theorem vals_nonempty_addToGroup (gs : List (String × List (String × String)))
    (b : String) (e : String × String)
    (h : ∀ g ∈ gs, g.2 ≠ []) :
    ∀ g ∈ addToGroup gs b e, g.2 ≠ [] := by
  induction gs with
  | nil =>
    intro g hg
    simp only [addToGroup, List.mem_singleton] at hg
    subst hg
    simp
  | cons g0 rest ih =>
    obtain ⟨k, es⟩ := g0
    by_cases hb : k = b
    · subst hb
      simp only [addToGroup, if_pos rfl]
      intro g hg
      rcases List.mem_cons.mp hg with h1 | h2
      · subst h1
        simp
      · exact h g (List.mem_cons_of_mem _ h2)
    · simp only [addToGroup, if_neg hb]
      intro g hg
      rcases List.mem_cons.mp hg with h1 | h2
      · subst h1
        exact h (k, es) (by simp)
      · exact ih (fun g' hg' => h g' (List.mem_cons_of_mem _ hg')) g h2

theorem findGroup_buildGroups_aux (fps : List String)
    (acc : List (String × List (String × String))) (b : String) :
    findGroup (fps.foldl (fun gs fp => addToGroup gs (baseOf fp) (verOf fp, fp)) acc) b =
      findGroup acc b ++
        (fps.filter (fun fp => baseOf fp = b)).map (fun fp => (verOf fp, fp)) := by
  induction fps generalizing acc with
  | nil => simp
  | cons fp fps ih =>
    rw [List.foldl_cons, ih]
    by_cases hb : baseOf fp = b
    · subst hb
      rw [findGroup_addToGroup_same]
      simp [List.filter_cons]
    · rw [findGroup_addToGroup_other _ _ _ _ (fun h => hb h.symm)]
      have hdec : (decide (baseOf fp = b)) = false := by simpa using hb
      simp [List.filter_cons, hdec]

theorem findGroup_buildGroups (fps : List String) (b : String) :
    findGroup (buildGroups fps) b =
      (fps.filter (fun fp => baseOf fp = b)).map (fun fp => (verOf fp, fp)) := by
  have h := findGroup_buildGroups_aux fps [] b
  have h0 : findGroup [] b = [] := by simp [findGroup, List.find?]
  rw [h0] at h
  simpa [buildGroups] using h

theorem nodup_keys_buildGroups (fps : List String) :
    ((buildGroups fps).map Prod.fst).Nodup := by
  have haux : ∀ (l : List String) (acc : List (String × List (String × String))),
      (acc.map Prod.fst).Nodup →
      ((l.foldl (fun gs fp => addToGroup gs (baseOf fp) (verOf fp, fp)) acc).map
        Prod.fst).Nodup := by
    intro l
    induction l with
    | nil => intro acc h; simpa using h
    | cons fp fps ih =>
      intro acc h
      rw [List.foldl_cons]
      exact ih _ (nodup_keys_addToGroup acc _ _ h)
  exact haux fps [] (by simp)

theorem vals_nonempty_buildGroups (fps : List String) :
    ∀ g ∈ buildGroups fps, g.2 ≠ [] := by
  have haux : ∀ (l : List String) (acc : List (String × List (String × String))),
      (∀ g ∈ acc, g.2 ≠ []) →
      ∀ g ∈ l.foldl (fun gs fp => addToGroup gs (baseOf fp) (verOf fp, fp)) acc,
        g.2 ≠ [] := by
    intro l
    induction l with
    | nil => intro acc h; simpa using h
    | cons fp fps ih =>
      intro acc h
      rw [List.foldl_cons]
      exact ih _ (vals_nonempty_addToGroup acc _ _ h)
  exact haux fps [] (by simp)

theorem findGroup_of_mem (gs : List (String × List (String × String)))
    (hnodup : (gs.map Prod.fst).Nodup) (k : String) (vs : List (String × String))
    (hmem : (k, vs) ∈ gs) : findGroup gs k = vs := by
  induction gs with
  | nil => simp at hmem
  | cons g rest ih =>
    obtain ⟨k0, vs0⟩ := g
    rw [List.map_cons, List.nodup_cons] at hnodup
    rcases List.mem_cons.mp hmem with h1 | h2
    · obtain ⟨hk, hvs⟩ := Prod.mk.injEq .. ▸ h1
      subst hk
      subst hvs
      simp [findGroup, List.find?]
    · have hk0 : k0 ≠ k := by
        intro he
        subst he
        exact hnodup.1 (by
          rw [List.mem_map]
          exact ⟨(k0, vs), h2, rfl⟩)
      simp only [findGroup, List.find?]
      have hdec : (decide (k0 = k)) = false := by simpa using hk0
      rw [hdec]
      exact ih hnodup.2 h2

theorem mem_keys_iff_exists (fps : List String) (b : String) :
    (∃ fp ∈ fps, baseOf fp = b) ↔ b ∈ (buildGroups fps).map Prod.fst := by
  constructor
  · intro ⟨fp, hfp, hb⟩
    have hfg : findGroup (buildGroups fps) b ≠ [] := by
      rw [findGroup_buildGroups]
      have : fp ∈ fps.filter (fun fp => baseOf fp = b) := by
        rw [List.mem_filter]
        exact ⟨hfp, by simpa using hb⟩
      intro hnil
      rw [List.map_eq_nil_iff] at hnil
      rw [hnil] at this
      simp at this
    unfold findGroup at hfg
    cases hfind : (buildGroups fps).find? (fun g => g.1 = b) with
    | none => rw [hfind] at hfg; simp at hfg
    | some g =>
      have hg := List.find?_some hfind
      have hmem := List.mem_of_find?_eq_some hfind
      rw [List.mem_map]
      exact ⟨g, hmem, by simpa using hg⟩
  · intro hmem
    rw [List.mem_map] at hmem
    obtain ⟨g, hg, hgb⟩ := hmem
    obtain ⟨k, vs⟩ := g
    simp only at hgb
    subst hgb
    have hvs : vs ≠ [] := vals_nonempty_buildGroups fps _ hg
    have hfg := findGroup_of_mem _ (nodup_keys_buildGroups fps) _ _ hg
    rw [findGroup_buildGroups] at hfg
    cases hfilter : (fps.filter (fun fp => baseOf fp = Prod.fst (k, vs))) with
    | nil =>
      exfalso
      apply hvs
      rw [← hfg]
      simp only at hfilter
      rw [hfilter]
      simp
    | cons fp rest =>
      have hfpmem : fp ∈ fps.filter (fun fp => baseOf fp = k) := by
        simp only at hfilter
        rw [hfilter]
        simp
      rw [List.mem_filter] at hfpmem
      exact ⟨fp, hfpmem.1, by simpa using hfpmem.2⟩

theorem lexLe_refl (a : List Char) : lexLe a a = true := by
  induction a with
  | nil => rfl
  | cons c cs ih => simp [lexLe, ih]

theorem lexLe_total (a b : List Char) : lexLe a b = true ∨ lexLe b a = true := by
  induction a generalizing b with
  | nil => exact Or.inl rfl
  | cons c cs ih =>
    cases b with
    | nil => exact Or.inr rfl
    | cons d ds =>
      by_cases h1 : c.toNat < d.toNat
      · exact Or.inl (by simp [lexLe, h1])
      · by_cases h2 : d.toNat < c.toNat
        · exact Or.inr (by simp [lexLe, h2])
        · rcases ih ds with h | h
          · exact Or.inl (by simp [lexLe, h1, h2, h])
          · exact Or.inr (by simp [lexLe, h1, h2, h])

theorem lexLe_trans (a b c : List Char) (hab : lexLe a b = true)
    (hbc : lexLe b c = true) : lexLe a c = true := by
  induction a generalizing b c with
  | nil => rfl
  | cons x xs ih =>
    cases b with
    | nil => simp [lexLe] at hab
    | cons y ys =>
      cases c with
      | nil => simp [lexLe] at hbc
      | cons z zs =>
        simp only [lexLe] at hab hbc ⊢
        by_cases hxy : x.toNat < y.toNat
        · by_cases hyz : y.toNat < z.toNat
          · have hxz : x.toNat < z.toNat := lt_trans hxy hyz
            simp [hxz]
          · by_cases hzy : z.toNat < y.toNat
            · rw [if_neg hyz, if_pos hzy] at hbc
              exact absurd hbc (by simp)
            · have hxz : x.toNat < z.toNat := by omega
              simp [hxz]
        · by_cases hyx : y.toNat < x.toNat
          · rw [if_neg hxy, if_pos hyx] at hab
            exact absurd hab (by simp)
          · by_cases hyz : y.toNat < z.toNat
            · have hxz : x.toNat < z.toNat := by omega
              simp [hxz]
            · by_cases hzy : z.toNat < y.toNat
              · rw [if_neg hyz, if_pos hzy] at hbc
                exact absurd hbc (by simp)
              · rw [if_neg hxy, if_neg hyx] at hab
                rw [if_neg hyz, if_neg hzy] at hbc
                have hxz1 : ¬ x.toNat < z.toNat := by omega
                have hxz2 : ¬ z.toNat < x.toNat := by omega
                rw [if_neg hxz1, if_neg hxz2]
                exact ih ys zs hab hbc

theorem lexLe_of_not_lexLe (a b : List Char) (h : ¬ lexLe a b = true) :
    lexLe b a = true := (lexLe_total a b).resolve_left h

theorem lexLt_true_iff (a b : List Char) : lexLt a b = true ↔ ¬ lexLe b a = true := by
  simp [lexLt]

theorem sortVersionsDesc_cons (v : String × String) (vs : List (String × String)) :
    sortVersionsDesc (v :: vs) =
      List.orderedInsert (fun a b => lexLe b.1.data a.1.data = true) v
        (sortVersionsDesc vs) := rfl

/-- The head of the stable descending sort is the first element of the input
attaining the maximal version token. -/
theorem sortDesc_head_spec (vs : List (String × String)) (hne : vs ≠ []) :
    ∃ latest rest pre post,
      sortVersionsDesc vs = latest :: rest ∧
      vs = pre ++ latest :: post ∧
      (∀ v ∈ pre, lexLt v.1.data latest.1.data = true) ∧
      (∀ v ∈ vs, lexLe v.1.data latest.1.data = true) := by
  induction vs with
  | nil => exact absurd rfl hne
  | cons v vs ih =>
    cases hvs : vs with
    | nil =>
      subst hvs
      refine ⟨v, [], [], [], rfl, by simp, by simp, ?_⟩
      intro x hx
      rw [List.mem_singleton] at hx
      subst hx
      exact lexLe_refl _
    | cons w ws =>
      subst hvs
      obtain ⟨l, rest, pre, post, hsort, hdecomp, hpre, hall⟩ := ih (by simp)
      by_cases hle : lexLe l.1.data v.1.data = true
      · refine ⟨v, l :: rest, [], w :: ws, ?_, by simp, by simp, ?_⟩
        · rw [sortVersionsDesc_cons, hsort]
          simp [List.orderedInsert, hle]
        · intro x hx
          rcases List.mem_cons.mp hx with rfl | hx2
          · exact lexLe_refl _
          · exact lexLe_trans _ _ _ (hall x hx2) hle
      · refine ⟨l, List.orderedInsert (fun a b => lexLe b.1.data a.1.data = true) v rest,
          v :: pre, post, ?_, ?_, ?_, ?_⟩
        · rw [sortVersionsDesc_cons, hsort]
          simp [List.orderedInsert, hle]
        · rw [hdecomp]
          simp
        · intro x hx
          rcases List.mem_cons.mp hx with rfl | hx2
          · exact (lexLt_true_iff _ _).mpr hle
          · exact hpre x hx2
        · intro x hx
          rcases List.mem_cons.mp hx with rfl | hx2
          · exact lexLe_of_not_lexLe _ _ hle
          · exact hall x hx2

theorem chooseFromGroup_single (b : String) (v : String × String) :
    chooseFromGroup b [v] = (v.2, none) := rfl

theorem chooseFromGroup_spec_multi (b : String) (vs : List (String × String))
    (h2 : 2 ≤ vs.length) :
    ∃ latest rest pre post,
      sortVersionsDesc vs = latest :: rest ∧
      vs = pre ++ latest :: post ∧
      (∀ v ∈ pre, lexLt v.1.data latest.1.data = true) ∧
      (∀ v ∈ vs, lexLe v.1.data latest.1.data = true) ∧
      chooseFromGroup b vs =
        (latest.2, some ⟨b, pyName latest.2, rest.map (fun v => pyName v.2)⟩) ∧
      rest.length = vs.length - 1 ∧
      (∀ v ∈ vs, v = latest ∨ v ∈ rest) := by
  match vs, h2 with
  | a :: c :: t, _ =>
    obtain ⟨latest, rest, pre, post, hsort, hdecomp, hpre, hall⟩ :=
      sortDesc_head_spec (a :: c :: t) (by simp)
    have hperm : List.Perm (sortVersionsDesc (a :: c :: t)) (a :: c :: t) :=
      List.perm_insertionSort _ _
    refine ⟨latest, rest, pre, post, hsort, hdecomp, hpre, hall, ?_, ?_, ?_⟩
    · show chooseFromGroup b (a :: c :: t) = _
      unfold chooseFromGroup
      rw [hsort]
    · have hlen := hperm.length_eq
      rw [hsort] at hlen
      simp only [List.length_cons] at hlen ⊢
      omega
    · intro v hv
      have hv2 : v ∈ latest :: rest := by
        rw [← hsort]
        exact hperm.symm.subset hv
      rcases List.mem_cons.mp hv2 with rfl | h
      · exact Or.inl rfl
      · exact Or.inr h

theorem group_member_spec (fps : List String) (k : String) (vs : List (String × String))
    (hmem : (k, vs) ∈ buildGroups fps) :
    vs = (fps.filter (fun fp => baseOf fp = k)).map (fun fp => (verOf fp, fp)) := by
  have h := findGroup_of_mem _ (nodup_keys_buildGroups fps) _ _ hmem
  rw [findGroup_buildGroups] at h
  exact h.symm

theorem group_member_data (fps : List String) (k : String) (vs : List (String × String))
    (hmem : (k, vs) ∈ buildGroups fps) :
    ∀ w ∈ vs, w.2 ∈ fps ∧ baseOf w.2 = k ∧ w.1 = verOf w.2 := by
  intro w hw
  rw [group_member_spec fps k vs hmem, List.mem_map] at hw
  obtain ⟨fp, hfp, rfl⟩ := hw
  rw [List.mem_filter] at hfp
  exact ⟨hfp.1, by simpa using hfp.2, rfl⟩

theorem chooseFromGroup_fst_mem (b : String) (vs : List (String × String))
    (hne : vs ≠ []) :
    ∃ w ∈ vs, (chooseFromGroup b vs).1 = w.2 ∧
      ∀ v ∈ vs, lexLe v.1.data w.1.data = true := by
  match vs, hne with
  | [v], _ =>
    refine ⟨v, by simp, rfl, ?_⟩
    intro x hx
    rw [List.mem_singleton] at hx
    subst hx
    exact lexLe_refl _
  | a :: c :: t, _ =>
    obtain ⟨latest, rest, pre, post, hsort, hdecomp, hpre, hall, hchoose, _, _⟩ :=
      chooseFromGroup_spec_multi b (a :: c :: t) (by simp)
    refine ⟨latest, ?_, by rw [hchoose], hall⟩
    rw [hdecomp]
    simp

theorem picked_spec (fps : List String) :
    ∀ x ∈ (buildGroups fps).map (fun g => chooseFromGroup g.1 g.2),
      ∃ k vs, (k, vs) ∈ buildGroups fps ∧ x = chooseFromGroup k vs ∧
        vs ≠ [] ∧ baseOf x.1 = k ∧ x.1 ∈ fps := by
  intro x hx
  rw [List.mem_map] at hx
  obtain ⟨g, hg, rfl⟩ := hx
  obtain ⟨k, vs⟩ := g
  have hvs : vs ≠ [] := vals_nonempty_buildGroups fps _ hg
  obtain ⟨w, hw, hfst, _⟩ := chooseFromGroup_fst_mem k vs hvs
  obtain ⟨hwf, hwb, _⟩ := group_member_data fps k vs hg w hw
  refine ⟨k, vs, hg, rfl, hvs, ?_, ?_⟩
  · rw [hfst]
    exact hwb
  · rw [hfst]
    exact hwf

theorem res_perm (fps : List String) :
    List.Perm (filter_latest_versions fps).1
      (((buildGroups fps).map (fun g => chooseFromGroup g.1 g.2)).map (fun x => x.1)) :=
  List.perm_insertionSort _ _

theorem logs_eq (fps : List String) :
    (filter_latest_versions fps).2 =
      ((buildGroups fps).map (fun g => chooseFromGroup g.1 g.2)).filterMap
        (fun x => x.2) := rfl

theorem res_sorted (fps : List String) :
    (filter_latest_versions fps).1.Pairwise
      (fun a b : String => lexLe a.data b.data = true) := by
  haveI h1 : IsTotal String (fun a b : String => lexLe a.data b.data = true) :=
    ⟨fun a b => lexLe_total a.data b.data⟩
  haveI h2 : IsTrans String (fun a b : String => lexLe a.data b.data = true) :=
    ⟨fun a b c => lexLe_trans a.data b.data c.data⟩
  exact List.sorted_insertionSort _ _

theorem mem_res_of_group (fps : List String) (k : String) (vs : List (String × String))
    (hg : (k, vs) ∈ buildGroups fps) :
    (chooseFromGroup k vs).1 ∈ (filter_latest_versions fps).1 := by
  refine (res_perm fps).mem_iff.mpr ?_
  rw [List.mem_map]
  refine ⟨chooseFromGroup k vs, ?_, rfl⟩
  rw [List.mem_map]
  exact ⟨(k, vs), hg, rfl⟩

theorem exists_group_of_base (fps : List String) (b : String)
    (hex : ∃ fp ∈ fps, baseOf fp = b) :
    ∃ vs, (b, vs) ∈ buildGroups fps ∧
      vs = (fps.filter (fun fp => baseOf fp = b)).map (fun fp => (verOf fp, fp)) := by
  have hkey := (mem_keys_iff_exists fps b).mp hex
  rw [List.mem_map] at hkey
  obtain ⟨g, hg, hgb⟩ := hkey
  obtain ⟨k, vs⟩ := g
  simp only at hgb
  subst hgb
  exact ⟨vs, hg, group_member_spec fps _ vs hg⟩

/-! ## Claim C3 -/

/-- C3: `filter_latest_versions` keeps exactly one file per distinct base
identity, sorted by path; a group of size 1 is kept unconditionally; in a
group of size greater than 1 a file with the lexicographically greatest
version token is kept and every discarded file is named in a diagnostic; on
the three-file group with tokens 1014, 1122, 1203 only the 1203 file is kept
and the other two are reported skipped. -/
theorem c3_revision_selection :
    (∀ fps : List String,
      (filter_latest_versions fps).1.Pairwise
        (fun a b : String => lexLe a.data b.data = true) ∧
      (∀ b : String, (∃ fp ∈ fps, baseOf fp = b) ↔
        ∃ r ∈ (filter_latest_versions fps).1, baseOf r = b) ∧
      ((filter_latest_versions fps).1.map baseOf).Nodup ∧
      (∀ fp ∈ fps, (fps.filter (fun g => baseOf g = baseOf fp)).length = 1 →
        fp ∈ (filter_latest_versions fps).1) ∧
      (∀ b : String, 1 < (fps.filter (fun g => baseOf g = b)).length →
        ∃ k ∈ (filter_latest_versions fps).1, baseOf k = b ∧
          (∀ fp ∈ fps, baseOf fp = b →
            lexLe (verOf fp).data (verOf k).data = true) ∧
          ∃ lg ∈ (filter_latest_versions fps).2, lg.base = b ∧ lg.kept = pyName k ∧
            lg.skipped.length = (fps.filter (fun g => baseOf g = b)).length - 1 ∧
            ∀ fp ∈ fps, baseOf fp = b → fp ≠ k → pyName fp ∈ lg.skipped)) ∧
    filter_latest_versions
        ["docs/prd(1014).docx", "docs/prd(1122).docx", "docs/prd(1203).docx"] =
      (["docs/prd(1203).docx"],
       [⟨"prd.docx", "prd(1203).docx", ["prd(1122).docx", "prd(1014).docx"]⟩]) := by
  refine ⟨?_, by decide⟩
  intro fps
  refine ⟨res_sorted fps, ?_, ?_, ?_, ?_⟩
  · -- one kept path per base present in the input
    intro b
    constructor
    · intro hex
      obtain ⟨vs, hg, hvs⟩ := exists_group_of_base fps b hex
      have hvne : vs ≠ [] := vals_nonempty_buildGroups fps _ hg
      obtain ⟨w, hw, hfst, _⟩ := chooseFromGroup_fst_mem b vs hvne
      obtain ⟨_, hwb, _⟩ := group_member_data fps b vs hg w hw
      refine ⟨(chooseFromGroup b vs).1, mem_res_of_group fps b vs hg, ?_⟩
      rw [hfst]
      exact hwb
    · intro ⟨r, hr, hrb⟩
      have hr2 := (res_perm fps).mem_iff.mp hr
      rw [List.mem_map] at hr2
      obtain ⟨x, hx, hxr⟩ := hr2
      obtain ⟨k, vs, _, _, _, _, hxf⟩ := picked_spec fps x hx
      exact ⟨r, by rw [← hxr]; exact hxf, hrb⟩
  · -- no base identity appears twice among the kept paths
    have hperm : List.Perm ((filter_latest_versions fps).1.map baseOf)
        ((((buildGroups fps).map (fun g => chooseFromGroup g.1 g.2)).map
          (fun x => x.1)).map baseOf) := (res_perm fps).map baseOf
    rw [List.map_map, List.map_map] at hperm
    have hpointwise : (buildGroups fps).map
          ((baseOf ∘ fun x => x.1) ∘ fun g => chooseFromGroup g.1 g.2) =
        (buildGroups fps).map Prod.fst := by
      apply List.map_congr_left
      intro g hg
      obtain ⟨k, vs⟩ := g
      have hvne : vs ≠ [] := vals_nonempty_buildGroups fps _ hg
      obtain ⟨w, hw, hfst, _⟩ := chooseFromGroup_fst_mem k vs hvne
      obtain ⟨_, hwb, _⟩ := group_member_data fps k vs hg w hw
      simp only [Function.comp_apply]
      rw [hfst]
      exact hwb
    rw [hpointwise] at hperm
    exact hperm.nodup_iff.mpr (nodup_keys_buildGroups fps)
  · -- a singleton group is kept unconditionally
    intro fp hfp hlen
    set b := baseOf fp with hb
    have hex : ∃ fp2 ∈ fps, baseOf fp2 = b := ⟨fp, hfp, rfl⟩
    obtain ⟨vs, hg, hvs⟩ := exists_group_of_base fps b hex
    have hfpgrp : fp ∈ fps.filter (fun g => baseOf g = b) := by
      rw [List.mem_filter]
      exact ⟨hfp, by simp⟩
    have hgrp : fps.filter (fun g => baseOf g = b) = [fp] := by
      cases hc : fps.filter (fun g => baseOf g = b) with
      | nil => rw [hc] at hfpgrp; simp at hfpgrp
      | cons a t =>
        rw [hc] at hlen hfpgrp
        simp only [List.length_cons] at hlen
        have ht : t = [] := List.length_eq_zero.mp (by omega)
        subst ht
        rw [List.mem_singleton] at hfpgrp
        rw [hfpgrp]
    rw [hgrp] at hvs
    simp only [List.map_cons, List.map_nil] at hvs
    have hchoose : chooseFromGroup b vs = (fp, none) := by
      rw [hvs]
      exact chooseFromGroup_single b (verOf fp, fp)
    have := mem_res_of_group fps b vs hg
    rw [hchoose] at this
    exact this
  · -- groups of several revisions: the kept file has a maximal token and the
    -- discarded files are named in the diagnostic
    intro b hlen
    have hgrpne : ∃ fp ∈ fps, baseOf fp = b := by
      cases hc : fps.filter (fun g => baseOf g = b) with
      | nil => rw [hc] at hlen; simp at hlen
      | cons a t =>
        have ha : a ∈ fps.filter (fun g => baseOf g = b) := by rw [hc]; simp
        rw [List.mem_filter] at ha
        exact ⟨a, ha.1, by simpa using ha.2⟩
    obtain ⟨vs, hg, hvs⟩ := exists_group_of_base fps b hgrpne
    have hvslen : vs.length = (fps.filter (fun g => baseOf g = b)).length := by
      rw [hvs, List.length_map]
    obtain ⟨latest, rest, pre, post, hsort, hdecomp, hpre, hall, hchoose,
        hrestlen, hcover⟩ := chooseFromGroup_spec_multi b vs (by omega)
    have hlatestvs : latest ∈ vs := by
      rw [hdecomp]
      exact List.mem_append_right _ (List.mem_cons_self _ _)
    obtain ⟨hlf, hlb, hlv⟩ := group_member_data fps b vs hg latest hlatestvs
    have hkres : latest.2 ∈ (filter_latest_versions fps).1 := by
      have := mem_res_of_group fps b vs hg
      rw [hchoose] at this
      exact this
    refine ⟨latest.2, hkres, hlb, ?_, ?_⟩
    · intro fp hfp hfpb
      have hpair : (verOf fp, fp) ∈ vs := by
        rw [hvs, List.mem_map]
        refine ⟨fp, ?_, rfl⟩
        rw [List.mem_filter]
        exact ⟨hfp, by simpa using hfpb⟩
      have := hall (verOf fp, fp) hpair
      rw [← hlv]
      exact this
    · refine ⟨⟨b, pyName latest.2, rest.map (fun v => pyName v.2)⟩, ?_, rfl, rfl, ?_, ?_⟩
      · rw [logs_eq, List.mem_filterMap]
        refine ⟨chooseFromGroup b vs, ?_, ?_⟩
        · rw [List.mem_map]
          exact ⟨(b, vs), hg, rfl⟩
        · rw [hchoose]
      · simp only [List.length_map]
        omega
      · intro fp hfp hfpb hfpk
        have hpair : (verOf fp, fp) ∈ vs := by
          rw [hvs, List.mem_map]
          refine ⟨fp, ?_, rfl⟩
          rw [List.mem_filter]
          exact ⟨hfp, by simpa using hfpb⟩
        rcases hcover (verOf fp, fp) hpair with heq | hrest
        · exfalso
          apply hfpk
          have := congrArg Prod.snd heq
          simpa using this
        · simp only [List.mem_map]
          exact ⟨(verOf fp, fp), hrest, rfl⟩

/-- Witness for C3: a singleton group is kept, at a concrete input. -/
theorem c3_witness : "a.docx" ∈ (filter_latest_versions ["a.docx"]).1 :=
  (c3_revision_selection.1 ["a.docx"]).2.2.2.1 "a.docx" (by decide) (by decide)

/-! ## Claim C10 -/

/-- C10: the descending sort by token is stable, so in every group of more
than one revision the kept file is the first file of the group (in input
order) whose version token attains the maximum: all earlier group members
have strictly smaller tokens, and no member exceeds the kept token. -/
theorem c10_stable_tie_break :
    ∀ (fps : List String) (b : String),
      1 < (fps.filter (fun g => baseOf g = b)).length →
      ∃ k pre post,
        fps.filter (fun g => baseOf g = b) = pre ++ k :: post ∧
        k ∈ (filter_latest_versions fps).1 ∧
        (∀ fp ∈ pre, lexLt (verOf fp).data (verOf k).data = true) ∧
        (∀ fp ∈ fps.filter (fun g => baseOf g = b),
          lexLe (verOf fp).data (verOf k).data = true) := by
  intro fps b hlen
  have hgrpne : ∃ fp ∈ fps, baseOf fp = b := by
    cases hc : fps.filter (fun g => baseOf g = b) with
    | nil => rw [hc] at hlen; simp at hlen
    | cons a t =>
      have ha : a ∈ fps.filter (fun g => baseOf g = b) := by rw [hc]; simp
      rw [List.mem_filter] at ha
      exact ⟨a, ha.1, by simpa using ha.2⟩
  obtain ⟨vs, hg, hvs⟩ := exists_group_of_base fps b hgrpne
  have hvslen : vs.length = (fps.filter (fun g => baseOf g = b)).length := by
    rw [hvs, List.length_map]
  obtain ⟨latest, rest, preP, postP, hsort, hdecomp, hpre, hall, hchoose, _, _⟩ :=
    chooseFromGroup_spec_multi b vs (by omega)
  have hlatestvs : latest ∈ vs := by
    rw [hdecomp]
    exact List.mem_append_right _ (List.mem_cons_self _ _)
  obtain ⟨_, _, hlv⟩ := group_member_data fps b vs hg latest hlatestvs
  have hkres : latest.2 ∈ (filter_latest_versions fps).1 := by
    have := mem_res_of_group fps b vs hg
    rw [hchoose] at this
    exact this
  have hgrp2 : fps.filter (fun g => baseOf g = b) = vs.map Prod.snd := by
    rw [hvs, List.map_map]
    have : (Prod.snd ∘ fun fp => ((verOf fp, fp) : String × String)) = id := rfl
    rw [this, List.map_id]
  refine ⟨latest.2, preP.map Prod.snd, postP.map Prod.snd, ?_, hkres, ?_, ?_⟩
  · rw [hgrp2, hdecomp]
    simp
  · intro fp hfp
    rw [List.mem_map] at hfp
    obtain ⟨w, hw, rfl⟩ := hfp
    have hwvs : w ∈ vs := by
      rw [hdecomp]
      exact List.mem_append_left _ hw
    obtain ⟨_, _, hwv⟩ := group_member_data fps b vs hg w hwvs
    rw [← hwv, ← hlv]
    exact hpre w hw
  · intro fp hfp
    have hpair : (verOf fp, fp) ∈ vs := by
      rw [List.mem_filter] at hfp
      rw [hvs, List.mem_map]
      exact ⟨fp, by rw [List.mem_filter]; exact hfp, rfl⟩
    have := hall (verOf fp, fp) hpair
    rw [← hlv]
    exact this

/-- Witness for C10 at a concrete two-file group. -/
theorem c10_witness :
    ∃ k pre post,
      ["docs/a(1014).docx", "docs/a(1203).docx"].filter
        (fun g => baseOf g = "a.docx") = pre ++ k :: post ∧
      k ∈ (filter_latest_versions ["docs/a(1014).docx", "docs/a(1203).docx"]).1 ∧
      (∀ fp ∈ pre, lexLt (verOf fp).data (verOf k).data = true) ∧
      (∀ fp ∈ ["docs/a(1014).docx", "docs/a(1203).docx"].filter
          (fun g => baseOf g = "a.docx"),
        lexLe (verOf fp).data (verOf k).data = true) :=
  c10_stable_tie_break ["docs/a(1014).docx", "docs/a(1203).docx"] "a.docx" (by decide)

/-! ## Helper lemmas: version-key extraction -/

theorem openParen_of_digit (c : Char) (h : isNdDigit c = true) :
    openParen c = false := by
  have h1 : c ≠ '(' := by
    intro he
    subst he
    exact absurd h (by decide)
  have h2 : c ≠ '（' := by
    intro he
    subst he
    exact absurd h (by decide)
  simp [openParen, h1, h2]

theorem closeParen_of_digit (c : Char) (h : isNdDigit c = true) :
    closeParen c = false := by
  have h1 : c ≠ ')' := by
    intro he
    subst he
    exact absurd h (by decide)
  have h2 : c ≠ '）' := by
    intro he
    subst he
    exact absurd h (by decide)
  simp [closeParen, h1, h2]

theorem dot_not_digit (c : Char) (h : isNdDigit c = true) : c ≠ '.' := by
  intro he
  subst he
  exact absurd h (by decide)

theorem newline_not_digit (c : Char) (h : isNdDigit c = true) : c ≠ '\n' := by
  intro he
  subst he
  exact absurd h (by decide)

theorem openParen_mem_stripSet (c : Char) (h : openParen c = true) : c ∈ stripSet := by
  unfold openParen at h
  rw [Bool.or_eq_true] at h
  rcases h with h | h
  · rw [decide_eq_true_iff] at h
    subst h
    decide
  · rw [decide_eq_true_iff] at h
    subst h
    decide

theorem lastDotIdx_none (s : List Char) (h : '.' ∉ s) : lastDotIdx s = none := by
  induction s with
  | nil => rfl
  | cons c cs ih =>
    simp only [lastDotIdx, ih (fun hm => h (List.mem_cons_of_mem c hm))]
    have hc : c ≠ '.' := fun he => h (he ▸ List.mem_cons_self c cs)
    simp [hc]

theorem lastDotIdx_append_dot (a e : List Char) (he : '.' ∉ e) :
    lastDotIdx (a ++ '.' :: e) = some a.length := by
  induction a with
  | nil =>
    simp only [List.nil_append, lastDotIdx, lastDotIdx_none e he]
    simp
  | cons c cs ih =>
    simp only [List.cons_append, lastDotIdx, List.append_eq]
    rw [ih]
    simp

theorem pyStem_pySuffix_spec (stem ext : List Char) (hs : '.' ∉ stem)
    (hext : ext = [] ∨ ∃ e, ext = '.' :: e ∧ e ≠ [] ∧ '.' ∉ e)
    (hne : stem ≠ [] ∨ ext = []) :
    pyStem (stem ++ ext) = stem ∧ pySuffix (stem ++ ext) = ext := by
  rcases hext with rfl | ⟨e, rfl, hene, hedot⟩
  · rw [List.append_nil]
    unfold pyStem pySuffix
    rw [lastDotIdx_none stem hs]
    exact ⟨rfl, rfl⟩
  · have hstemne : stem ≠ [] := hne.resolve_right (by simp)
    unfold pyStem pySuffix
    rw [lastDotIdx_append_dot stem e hedot]
    have hcond : 0 < stem.length ∧ stem.length < (stem ++ '.' :: e).length - 1 := by
      refine ⟨List.length_pos.mpr hstemne, ?_⟩
      rw [List.length_append, List.length_cons]
      have : e.length ≠ 0 := fun h0 => hene (List.length_eq_zero.mp h0)
      omega
    constructor
    · show (if 0 < stem.length ∧ stem.length < (stem ++ '.' :: e).length - 1 then
          List.take stem.length (stem ++ '.' :: e) else stem ++ '.' :: e) = stem
      rw [if_pos hcond]
      exact List.take_left stem ('.' :: e)
    · show (if 0 < stem.length ∧ stem.length < (stem ++ '.' :: e).length - 1 then
          List.drop stem.length (stem ++ '.' :: e) else []) = '.' :: e
      rw [if_pos hcond]
      exact List.drop_left stem ('.' :: e)

theorem dropWhile_append_of_all (p : Char → Bool) (a b : List Char)
    (h : ∀ c ∈ a, p c = true) :
    (a ++ b).dropWhile p = b.dropWhile p := by
  induction a with
  | nil => rfl
  | cons c cs ih =>
    rw [List.cons_append, List.dropWhile_cons, if_pos (h c (by simp))]
    exact ih (fun x hx => h x (List.mem_cons_of_mem c hx))

theorem pyRstrip_append_strippable (x tail2 : List Char)
    (h : ∀ c ∈ tail2, c ∈ stripSet) :
    pyRstrip stripSet (x ++ tail2) = pyRstrip stripSet x := by
  unfold pyRstrip
  rw [List.reverse_append]
  rw [dropWhile_append_of_all _ tail2.reverse x.reverse
    (fun c hc => by simpa using h c (List.mem_reverse.mp hc))]

theorem dot_not_mem_structured (pre op tok cl : List Char) (hpre : '.' ∉ pre)
    (hop : op = [] ∨ op = ['('] ∨ op = ['（'])
    (htokd : tok.all isNdDigit = true)
    (hcl : cl = [] ∨ cl = [')'] ∨ cl = ['）']) :
    '.' ∉ pre ++ op ++ tok ++ cl := by
  intro hmem
  rw [List.append_assoc, List.append_assoc, List.mem_append] at hmem
  rcases hmem with hmem | hmem
  · exact hpre hmem
  · rw [List.mem_append] at hmem
    rcases hmem with hmem | hmem
    · rcases hop with rfl | rfl | rfl <;> simp at hmem
    · rw [List.mem_append] at hmem
      rcases hmem with hmem | hmem
      · rw [List.all_eq_true] at htokd
        exact dot_not_digit '.' (htokd '.' hmem) rfl
      · rcases hcl with rfl | rfl | rfl <;> simp at hmem

theorem newline_not_mem_structured (pre op tok cl : List Char)
    (hpre : '\n' ∉ pre)
    (hop : op = [] ∨ op = ['('] ∨ op = ['（'])
    (htokd : tok.all isNdDigit = true)
    (hcl : cl = [] ∨ cl = [')'] ∨ cl = ['）']) :
    '\n' ∉ pre ++ op ++ tok ++ cl := by
  intro hmem
  rw [List.append_assoc, List.append_assoc, List.mem_append] at hmem
  rcases hmem with hmem | hmem
  · exact hpre hmem
  · rw [List.mem_append] at hmem
    rcases hmem with hmem | hmem
    · rcases hop with rfl | rfl | rfl <;> simp at hmem
    · rw [List.mem_append] at hmem
      rcases hmem with hmem | hmem
      · rw [List.all_eq_true] at htokd
        exact newline_not_digit '\n' (htokd '\n' hmem) rfl
      · rcases hcl with rfl | rfl | rfl <;> simp at hmem

theorem lookaheadOk_iff_nil (r : List Char) (h : '.' ∉ r) (hn : '\n' ∉ r) :
    lookaheadOk r = true ↔ r = [] := by
  cases r with
  | nil => simp [lookaheadOk]
  | cons c cs =>
    have hc : c ≠ '.' := fun he => h (he ▸ List.mem_cons_self c cs)
    have hcn : c ≠ '\n' := fun he => hn (he ▸ List.mem_cons_self c cs)
    simp [lookaheadOk, hc, hcn]

theorem try4_spec (s g rest : List Char) (h : try4 s = some (g, rest)) :
    s = g ++ rest ∧ g.length = 4 ∧ g.all isNdDigit = true := by
  match s, h with
  | a :: b :: c :: d :: rs, h =>
    simp only [try4] at h
    by_cases hd : (isNdDigit a && isNdDigit b && isNdDigit c && isNdDigit d) = true
    · rw [if_pos hd] at h
      rw [Option.some.injEq, Prod.mk.injEq] at h
      obtain ⟨hg, hr⟩ := h
      subst hg
      subst hr
      refine ⟨rfl, rfl, ?_⟩
      simp only [Bool.and_eq_true] at hd
      simp [List.all_cons, hd.1.1.1, hd.1.1.2, hd.1.2, hd.2]
    · rw [if_neg hd] at h
      cases h

theorem matchNoParen_some (s g : List Char) (h : matchNoParen s = some g) :
    ∃ d r, s = g ++ d ++ r ∧ g.length = 4 ∧ g.all isNdDigit = true ∧
      (d = [] ∨ ∃ dc, d = [dc] ∧ closeParen dc = true) ∧ lookaheadOk r = true := by
  unfold matchNoParen at h
  cases htry : try4 s with
  | none => rw [htry] at h; cases h
  | some gr =>
    obtain ⟨g0, rest⟩ := gr
    rw [htry] at h
    have h2 : (if afterDigits rest = true then some g0 else none) = some g := h
    by_cases haft : afterDigits rest = true
    case neg => rw [if_neg haft] at h2; cases h2
    case pos =>
    rw [if_pos haft, Option.some.injEq] at h2
    obtain ⟨hs, hlen, hdig⟩ := try4_spec s g0 rest htry
    subst h2
    unfold afterDigits at haft
    rw [Bool.or_eq_true] at haft
    rcases haft with hcl | hla
    · cases rest with
      | nil => simp at hcl
      | cons dc r2 =>
        rw [Bool.and_eq_true] at hcl
        refine ⟨[dc], r2, ?_, hlen, hdig, Or.inr ⟨dc, rfl, hcl.1⟩, hcl.2⟩
        rw [hs]
        simp
    · refine ⟨[], rest, ?_, hlen, hdig, Or.inl rfl, hla⟩
      rw [hs]
      simp

theorem matchAt_some (s g : List Char) (h : matchAt s = some g) :
    ∃ o d r, s = o ++ g ++ d ++ r ∧
      (o = [] ∨ ∃ oc, o = [oc] ∧ openParen oc = true) ∧
      g.length = 4 ∧ g.all isNdDigit = true ∧
      (d = [] ∨ ∃ dc, d = [dc] ∧ closeParen dc = true) ∧
      lookaheadOk r = true := by
  cases s with
  | nil => cases h
  | cons c cs =>
    have h2 : (if openParen c = true then
        match matchNoParen cs with
        | some g2 => some g2
        | none => matchNoParen (c :: cs)
      else matchNoParen (c :: cs)) = some g := h
    by_cases hop : openParen c = true
    · rw [if_pos hop] at h2
      cases hmn : matchNoParen cs with
      | some g2 =>
        rw [hmn] at h2
        rw [Option.some.injEq] at h2
        subst h2
        obtain ⟨d, r, hseq, hlen, hdig, hd, hla⟩ := matchNoParen_some cs g2 hmn
        refine ⟨[c], d, r, ?_, Or.inr ⟨c, rfl, hop⟩, hlen, hdig, hd, hla⟩
        rw [hseq]
        simp
      | none =>
        rw [hmn] at h2
        obtain ⟨d, r, hseq, hlen, hdig, hd, hla⟩ := matchNoParen_some (c :: cs) g h2
        refine ⟨[], d, r, ?_, Or.inl rfl, hlen, hdig, hd, hla⟩
        rw [List.nil_append]
        exact hseq
    · rw [if_neg hop] at h2
      obtain ⟨d, r, hseq, hlen, hdig, hd, hla⟩ := matchNoParen_some (c :: cs) g h2
      refine ⟨[], d, r, ?_, Or.inl rfl, hlen, hdig, hd, hla⟩
      rw [List.nil_append]
      exact hseq

theorem matchAt_token (tok cl : List Char) (hlen : tok.length = 4)
    (hdig : tok.all isNdDigit = true)
    (hcl : cl = [] ∨ cl = [')'] ∨ cl = ['）']) :
    matchAt (tok ++ cl) = some tok := by
  match tok, hlen with
  | [a, b, c, d], _ =>
    simp only [List.all_cons, List.all_nil, Bool.and_eq_true, Bool.and_true] at hdig
    obtain ⟨ha, hb, hc, hd⟩ := hdig
    have hopen : openParen a = false := openParen_of_digit a ha
    have hdigits : (isNdDigit a && isNdDigit b && isNdDigit c && isNdDigit d) = true := by
      simp [ha, hb, hc, hd]
    have hs : ([a, b, c, d] : List Char) ++ cl = a :: b :: c :: d :: cl := by simp
    rw [hs]
    show (if openParen a = true then
        match matchNoParen (b :: c :: d :: cl) with
        | some g => some g
        | none => matchNoParen (a :: b :: c :: d :: cl)
      else matchNoParen (a :: b :: c :: d :: cl)) = some [a, b, c, d]
    rw [if_neg (by simp [hopen])]
    have htry : try4 (a :: b :: c :: d :: cl) = some ([a, b, c, d], cl) := by
      show (if (isNdDigit a && isNdDigit b && isNdDigit c && isNdDigit d) = true then
        some (([a, b, c, d] : List Char), cl) else none) = some ([a, b, c, d], cl)
      rw [if_pos hdigits]
    show (match try4 (a :: b :: c :: d :: cl) with
      | some (g, rest) => if afterDigits rest = true then some g else none
      | none => none) = some [a, b, c, d]
    rw [htry]
    have haft : afterDigits cl = true := by
      rcases hcl with rfl | rfl | rfl <;> decide
    show (if afterDigits cl = true then some [a, b, c, d] else none) = some [a, b, c, d]
    rw [if_pos haft]

theorem regexSearchAux_some (s : List Char) (i : Nat) (j : Nat) (g : List Char)
    (h : regexSearchAux s i = some (j, g)) :
    ∃ p, j = i + p ∧ matchAt (s.drop p) = some g := by
  induction s generalizing i with
  | nil => cases h
  | cons c cs ih =>
    simp only [regexSearchAux] at h
    cases hm : matchAt (c :: cs) with
    | some g2 =>
      rw [hm] at h
      rw [Option.some.injEq, Prod.mk.injEq] at h
      obtain ⟨hj, hg⟩ := h
      subst hj
      subst hg
      exact ⟨0, by omega, by rw [List.drop_zero]; exact hm⟩
    | none =>
      rw [hm] at h
      obtain ⟨p, hp, hmp⟩ := ih (i + 1) h
      refine ⟨p + 1, by omega, ?_⟩
      rw [List.drop_succ_cons]
      exact hmp

theorem regexSearchAux_none (s : List Char) (i : Nat)
    (h : regexSearchAux s i = none) :
    ∀ p, matchAt (s.drop p) = none := by
  induction s generalizing i with
  | nil =>
    intro p
    rw [List.drop_nil]
    rfl
  | cons c cs ih =>
    simp only [regexSearchAux] at h
    cases hm : matchAt (c :: cs) with
    | some g => rw [hm] at h; cases h
    | none =>
      rw [hm] at h
      intro p
      cases p with
      | zero => rw [List.drop_zero]; exact hm
      | succ p2 =>
        rw [List.drop_succ_cons]
        exact ih (i + 1) h p2

theorem exists_concat_of_length4 (l : List Char) (h : l.length = 4) :
    ∃ l2 c, l = l2 ++ [c] ∧ c ∈ l := by
  match l, h with
  | [a, b, c, d], _ => exact ⟨[a, b, c], d, by simp, by simp⟩

/-- Reconciling the two end decompositions of a dot-free stem: the matched
digit group must be the structured token and the preceding texts agree. -/
theorem ends_reconcile (X Y tok g d cl : List Char)
    (hlen : tok.length = 4) (hdig : tok.all isNdDigit = true)
    (hglen : g.length = 4) (hgdig : g.all isNdDigit = true)
    (hcl : cl = [] ∨ ∃ cc, cl = [cc] ∧ closeParen cc = true)
    (hd : d = [] ∨ ∃ dc, d = [dc] ∧ closeParen dc = true)
    (heq : X ++ tok ++ cl = Y ++ g ++ d) :
    tok = g ∧ X = Y := by
  rcases hcl with rfl | ⟨cc, rfl, hcc⟩
  · rcases hd with rfl | ⟨dc, rfl, hdc⟩
    · rw [List.append_nil, List.append_nil] at heq
      obtain ⟨hXY, htg⟩ := List.append_inj' heq (by omega)
      exact ⟨htg, hXY⟩
    · exfalso
      rw [List.append_nil] at heq
      obtain ⟨tok3, tl, htok, htl⟩ := exists_concat_of_length4 tok hlen
      rw [htok, ← List.append_assoc] at heq
      obtain ⟨_, hsing⟩ := List.append_inj' heq (by simp)
      rw [List.cons.injEq] at hsing
      have htldig : isNdDigit tl = true := by
        rw [List.all_eq_true] at hdig
        exact hdig tl htl
      rw [hsing.1] at htldig
      rw [closeParen_of_digit dc htldig] at hdc
      cases hdc
  · rcases hd with rfl | ⟨dc, rfl, hdc⟩
    · exfalso
      rw [List.append_nil] at heq
      obtain ⟨g3, gl, hg, hgl⟩ := exists_concat_of_length4 g hglen
      rw [hg, ← List.append_assoc] at heq
      obtain ⟨_, hsing⟩ := List.append_inj' heq (by simp)
      rw [List.cons.injEq] at hsing
      have hgldig : isNdDigit gl = true := by
        rw [List.all_eq_true] at hgdig
        exact hgdig gl hgl
      rw [hsing.1] at hcc
      rw [closeParen_of_digit gl hgldig] at hcc
      cases hcc
    · obtain ⟨h1, _⟩ := List.append_inj' heq (by simp)
      obtain ⟨hXY, htg⟩ := List.append_inj' h1 (by omega)
      exact ⟨htg, hXY⟩

theorem matchAt_group_eq (pre op tok cl : List Char) (p : Nat) (g : List Char)
    (hpre : '.' ∉ pre) (hpren : '\n' ∉ pre)
    (hop : op = [] ∨ op = ['('] ∨ op = ['（'])
    (hlen : tok.length = 4) (hdig : tok.all isNdDigit = true)
    (hcl : cl = [] ∨ cl = [')'] ∨ cl = ['）'])
    (hm : matchAt ((pre ++ op ++ tok ++ cl).drop p) = some g) :
    g = tok ∧ pyRstrip stripSet ((pre ++ op ++ tok ++ cl).take p) =
      pyRstrip stripSet pre := by
  obtain ⟨o, d, r, hseq, ho, hglen, hgdig, hd, hla⟩ := matchAt_some _ _ hm
  have hsdot : '.' ∉ pre ++ op ++ tok ++ cl :=
    dot_not_mem_structured pre op tok cl hpre hop hdig hcl
  have hsnl : '\n' ∉ pre ++ op ++ tok ++ cl :=
    newline_not_mem_structured pre op tok cl hpren hop hdig hcl
  have hddot : '.' ∉ (pre ++ op ++ tok ++ cl).drop p :=
    fun hm2 => hsdot (List.drop_subset p (pre ++ op ++ tok ++ cl) hm2)
  have hdnl : '\n' ∉ (pre ++ op ++ tok ++ cl).drop p :=
    fun hm2 => hsnl (List.drop_subset p (pre ++ op ++ tok ++ cl) hm2)
  have hrdot : '.' ∉ r := by
    intro hm2
    apply hddot
    rw [hseq]
    simp [hm2]
  have hrnl : '\n' ∉ r := by
    intro hm2
    apply hdnl
    rw [hseq]
    simp [hm2]
  have hrnil : r = [] := (lookaheadOk_iff_nil r hrdot hrnl).mp hla
  subst hrnil
  rw [List.append_nil] at hseq
  have hsplit : ((pre ++ op ++ tok ++ cl).take p ++ o) ++ g ++ d =
      (pre ++ op) ++ tok ++ cl := by
    have h1 : (pre ++ op ++ tok ++ cl).take p ++ (pre ++ op ++ tok ++ cl).drop p =
        pre ++ op ++ tok ++ cl := List.take_append_drop p (pre ++ op ++ tok ++ cl)
    rw [hseq] at h1
    calc ((pre ++ op ++ tok ++ cl).take p ++ o) ++ g ++ d
        = (pre ++ op ++ tok ++ cl).take p ++ (o ++ g ++ d) := by simp
      _ = pre ++ op ++ tok ++ cl := h1
      _ = (pre ++ op) ++ tok ++ cl := by simp
  have hcl2 : cl = [] ∨ ∃ cc, cl = [cc] ∧ closeParen cc = true := by
    rcases hcl with rfl | rfl | rfl
    · exact Or.inl rfl
    · exact Or.inr ⟨')', rfl, by decide⟩
    · exact Or.inr ⟨'）', rfl, by decide⟩
  obtain ⟨htokg, hXY⟩ := ends_reconcile (pre ++ op)
    ((pre ++ op ++ tok ++ cl).take p ++ o) tok g d cl hlen hdig hglen hgdig
    hcl2 hd hsplit.symm
  have hopstrip : ∀ c ∈ op, c ∈ stripSet := by
    rcases hop with rfl | rfl | rfl
    · intro c hc
      simp at hc
    · intro c hc
      rw [List.mem_singleton] at hc
      subst hc
      decide
    · intro c hc
      rw [List.mem_singleton] at hc
      subst hc
      decide
  refine ⟨htokg.symm, ?_⟩
  rcases ho with rfl | ⟨oc, rfl, hoc⟩
  · rw [List.append_nil] at hXY
    rw [← hXY]
    exact pyRstrip_append_strippable pre op hopstrip
  · have hocstrip : ∀ c ∈ [oc], c ∈ stripSet := by
      intro c hc
      rw [List.mem_singleton] at hc
      rw [hc]
      exact openParen_mem_stripSet oc hoc
    rcases hop with rfl | rfl | rfl
    · have hstr := pyRstrip_append_strippable
        ((pre ++ [] ++ tok ++ cl).take p) [oc] hocstrip
      simp only [List.append_nil] at hXY hstr ⊢
      rw [← hXY] at hstr
      exact hstr.symm
    · have h1 := List.append_inj' hXY (by simp)
      exact (congrArg (pyRstrip stripSet) h1.1).symm
    · have h1 := List.append_inj' hXY (by simp)
      exact (congrArg (pyRstrip stripSet) h1.1).symm

theorem extract_version_key_structured (pre op tok cl ext : List Char)
    (hpre : '.' ∉ pre) (hpren : '\n' ∉ pre)
    (hop : op = [] ∨ op = ['('] ∨ op = ['（'])
    (hlen : tok.length = 4) (hdig : tok.all isNdDigit = true)
    (hcl : cl = [] ∨ cl = [')'] ∨ cl = ['）'])
    (hext : ext = [] ∨ ∃ e, ext = '.' :: e ∧ e ≠ [] ∧ '.' ∉ e) :
    extract_version_key (pre ++ op ++ tok ++ cl ++ ext) =
      (pyRstrip stripSet pre ++ ext, tok) := by
  have hstemdot : '.' ∉ pre ++ op ++ tok ++ cl :=
    dot_not_mem_structured pre op tok cl hpre hop hdig hcl
  have hstemne : pre ++ op ++ tok ++ cl ≠ [] := by
    intro h0
    have := congrArg List.length h0
    simp [List.length_append, hlen] at this
  have hassoc : pre ++ op ++ tok ++ cl ++ ext = (pre ++ op ++ tok ++ cl) ++ ext := by
    simp
  rw [hassoc]
  unfold extract_version_key
  obtain ⟨hstem, hsfx⟩ :=
    pyStem_pySuffix_spec (pre ++ op ++ tok ++ cl) ext hstemdot hext (Or.inl hstemne)
  rw [hstem, hsfx]
  have hdrop : (pre ++ op ++ tok ++ cl).drop (pre ++ op).length = tok ++ cl := by
    have h0 : pre ++ op ++ tok ++ cl = (pre ++ op) ++ (tok ++ cl) := by simp
    rw [h0, List.drop_left]
  have hexist : matchAt ((pre ++ op ++ tok ++ cl).drop (pre ++ op).length) =
      some tok := by
    rw [hdrop]
    exact matchAt_token tok cl hlen hdig hcl
  cases hsearch : regexSearch (pre ++ op ++ tok ++ cl) with
  | none =>
    exfalso
    have hnone := regexSearchAux_none _ 0 hsearch (pre ++ op).length
    rw [hexist] at hnone
    cases hnone
  | some pg =>
    obtain ⟨j, g⟩ := pg
    obtain ⟨p, hj, hmp⟩ := regexSearchAux_some _ 0 j g hsearch
    obtain ⟨hgtok, hrstrip⟩ :=
      matchAt_group_eq pre op tok cl p g hpre hpren hop hlen hdig hcl hmp
    have hj0 : j = p := by omega
    subst hj0
    show (match regexSearch (pre ++ op ++ tok ++ cl) with
      | some (st, ver) =>
        (pyRstrip stripSet (List.take st (pre ++ op ++ tok ++ cl)) ++ ext, ver)
      | none => ((pre ++ op ++ tok ++ cl) ++ ext, [])) =
      (pyRstrip stripSet pre ++ ext, tok)
    rw [hsearch]
    show (pyRstrip stripSet (List.take j (pre ++ op ++ tok ++ cl)) ++ ext, g) =
      (pyRstrip stripSet pre ++ ext, tok)
    rw [Prod.mk.injEq]
    exact ⟨by rw [hrstrip], hgtok⟩

theorem endsWith4_append (x g : List Char) (hlen : g.length = 4)
    (hdig : g.all isNdDigit = true) : endsWith4 (x ++ g) = true := by
  unfold endsWith4 digit4
  have h1 : (x ++ g).length - 4 = x.length := by
    rw [List.length_append]
    omega
  rw [h1, List.drop_left]
  have h2 : 4 ≤ (x ++ g).length := by
    rw [List.length_append]
    omega
  simp [hlen, hdig, h2]

theorem stemHasTokenEnd_append4 (x g : List Char) (hlen : g.length = 4)
    (hdig : g.all isNdDigit = true) : stemHasTokenEnd (x ++ g) = true := by
  unfold stemHasTokenEnd
  rw [endsWith4_append x g hlen hdig]
  simp

theorem stemHasTokenEnd_append4_closer (x g : List Char) (dc : Char)
    (hlen : g.length = 4) (hdig : g.all isNdDigit = true)
    (hdc : closeParen dc = true) :
    stemHasTokenEnd ((x ++ g) ++ [dc]) = true := by
  unfold stemHasTokenEnd
  have hlast : ((x ++ g) ++ [dc]).getLast? = some dc := by
    rw [List.getLast?_concat]
  have hdrop : ((x ++ g) ++ [dc]).dropLast = x ++ g := by
    rw [List.dropLast_concat]
  rw [hlast, hdrop]
  show (endsWith4 ((x ++ g) ++ [dc]) || (closeParen dc && endsWith4 (x ++ g))) = true
  rw [hdc, endsWith4_append x g hlen hdig]
  simp

theorem extract_version_key_no_token (stem ext : List Char)
    (hs : '.' ∉ stem) (hsn : '\n' ∉ stem)
    (hext : ext = [] ∨ ∃ e, ext = '.' :: e ∧ e ≠ [] ∧ '.' ∉ e)
    (hne : stem ≠ [] ∨ ext = [])
    (hnotok : stemHasTokenEnd stem = false) :
    extract_version_key (stem ++ ext) = (stem ++ ext, []) := by
  unfold extract_version_key
  obtain ⟨hstem, hsfx⟩ := pyStem_pySuffix_spec stem ext hs hext hne
  rw [hstem, hsfx]
  cases hsearch : regexSearch stem with
  | none =>
    show (match regexSearch stem with
      | some (st, ver) => (pyRstrip stripSet (List.take st stem) ++ ext, ver)
      | none => (stem ++ ext, [])) = (stem ++ ext, [])
    rw [hsearch]
  | some pg =>
    exfalso
    obtain ⟨j, g⟩ := pg
    obtain ⟨p, hj, hmp⟩ := regexSearchAux_some _ 0 j g hsearch
    obtain ⟨o, d, r, hseq, ho, hglen, hgdig, hd, hla⟩ := matchAt_some _ _ hmp
    have hddot : '.' ∉ stem.drop p := fun hm2 => hs (List.drop_subset p stem hm2)
    have hdnl : '\n' ∉ stem.drop p := fun hm2 => hsn (List.drop_subset p stem hm2)
    have hrdot : '.' ∉ r := by
      intro hm2
      apply hddot
      rw [hseq]
      simp [hm2]
    have hrnl : '\n' ∉ r := by
      intro hm2
      apply hdnl
      rw [hseq]
      simp [hm2]
    have hrnil : r = [] := (lookaheadOk_iff_nil r hrdot hrnl).mp hla
    subst hrnil
    rw [List.append_nil] at hseq
    have hsplit : stem = (stem.take p ++ o ++ g) ++ d := by
      conv_lhs => rw [← List.take_append_drop p stem]
      rw [hseq]
      simp
    rcases hd with rfl | ⟨dc, rfl, hdc⟩
    · have : stemHasTokenEnd stem = true := by
        rw [List.append_nil] at hsplit
        rw [hsplit]
        exact stemHasTokenEnd_append4 (stem.take p ++ o) g hglen hgdig
      rw [this] at hnotok
      cases hnotok
    · have : stemHasTokenEnd stem = true := by
        rw [hsplit]
        exact stemHasTokenEnd_append4_closer (stem.take p ++ o) g dc hglen hgdig hdc
      rw [this] at hnotok
      cases hnotok

/-! ## Claim C2 -/

/-- C2 is refuted as stated: the name "ab1234.v2.docx" has no trailing
4-digit token in the claim's sense (neither immediately before the pathlib
extension ".docx" nor at the end of the name), yet the function does not
return the original name with an empty token: the lookahead, evaluated
against the stem "ab1234.v2", accepts the internal dot segment ".v2" as if
it were the extension, so the function returns ("ab.docx", "1234"). -/
theorem c2_counterexample :
    claimTrailingToken "ab1234.v2.docx".data = false ∧
    extract_version_key "ab1234.v2.docx".data ≠ ("ab1234.v2.docx".data, []) ∧
    extract_version_key "ab1234.v2.docx".data = ("ab.docx".data, "1234".data) := by
  decide

/-- C2 (amended): restricted to names whose stem is dot-free and
newline-free (the pattern's `$` also matches just before a trailing newline,
so a stem ending in a newline can still match).  First part: for every name
of the form prefix + token + extension, with the 4-digit token (Unicode
decimal digits, the class `\d`) optionally preceded by an opening
parenthesis and/or followed by a closing parenthesis (each independently
optional), a dot-free newline-free prefix and an extension that is empty or
a final dot segment, the extractor returns the prefix with trailing
separators stripped plus the extension, and the token.  Second part: when
the dot-free newline-free stem does not end in a 4-digit token (optionally
followed by one closing parenthesis), the extractor returns the original
name and an empty token.  The function is total by construction, so it
raises on no input. -/
theorem c2_version_key_extraction :
    (∀ pre op tok cl ext : List Char, '.' ∉ pre → '\n' ∉ pre →
      (op = [] ∨ op = ['('] ∨ op = ['（']) →
      tok.length = 4 → tok.all isNdDigit = true →
      (cl = [] ∨ cl = [')'] ∨ cl = ['）']) →
      (ext = [] ∨ ∃ e, ext = '.' :: e ∧ e ≠ [] ∧ '.' ∉ e) →
      extract_version_key (pre ++ op ++ tok ++ cl ++ ext) =
        (pyRstrip stripSet pre ++ ext, tok)) ∧
    (∀ stem ext : List Char, '.' ∉ stem → '\n' ∉ stem →
      (ext = [] ∨ ∃ e, ext = '.' :: e ∧ e ≠ [] ∧ '.' ∉ e) →
      (stem ≠ [] ∨ ext = []) →
      stemHasTokenEnd stem = false →
      extract_version_key (stem ++ ext) = (stem ++ ext, [])) :=
  ⟨fun pre op tok cl ext hpre hpren hop hlen hdig hcl hext =>
      extract_version_key_structured pre op tok cl ext hpre hpren hop hlen hdig
        hcl hext,
   fun stem ext hs hsn hext hne hnotok =>
      extract_version_key_no_token stem ext hs hsn hext hne hnotok⟩

/-- Witness for C2 at the fully wrapped concrete name. -/
theorem c2_witness :
    extract_version_key "doc（1203）.docx".data = ("doc.docx".data, "1203".data) := by
  have h := c2_version_key_extraction.1 "doc".data ['（'] "1203".data ['）'] ".docx".data
    (by decide) (by decide) (Or.inr (Or.inr rfl)) (by decide) (by decide)
    (Or.inr (Or.inr rfl)) (Or.inr ⟨"docx".data, rfl, by decide, by decide⟩)
  exact h.trans (by decide)
